import Mathlib

/-!
Verification of the confguru tree import/export logic.

The embedding follows `src/confguru/backends/zookeeper.py` (class `ZKClient`):
`_create_children` / `_create_child` (the document importer),
`_dump_children` (the subtree exporter), and `src/confguru/guru.py`
(`_get_backend_class`).  The coordination-service client (kazoo) is an
external collaborator; its node-store capability (`create`, `get`, `update`,
`exists`, `getChildren`) is modelled from the spec, §6.
-/

namespace Confguru

/-- A node path, as its list of slash-separated segments.  The spec's data
model: "identified by an absolute slash-delimited path (sequence of
non-empty segments)"; the root path `/` is the empty list. -/
abbrev Path := List String

/-- Nested document values (the spec's `DocumentValue`): a tagged union of
Scalar(string), List, and Map with insertion-ordered entries, exactly the
shapes `_create_children` dispatches on (string / list / dict). -/
inductive DV where
  | str (s : String)
  | list (l : List DV)
  | map (m : List (String × DV))

/-- Error kinds of the node store that the claims touch
(spec §7: NoSuchNode, NodeExists, plus access denial). -/
inductive ZKErr where
  | noNode
  | nodeExists
  | noAuth
  deriving DecidableEq, Repr

/-- The importer options threaded through `_create_children`:
acl, ephemeral, sequence, makepath. -/
structure Opts where
  acl : Option String
  ephemeral : Bool
  sequence : Bool
  makepath : Bool
  deriving DecidableEq, Repr

/-- The defaults of `initialize_from_json_file` / `initialize_from_yml_file`:
acl=None, ephemeral=False, sequence=False, makepath=True. -/
def defaultOpts : Opts := ⟨none, false, false, true⟩

/-- The node-store state: the nodes as an association list from path to
value (list order = creation order, which is the order `get_children`
reports children in), plus the sets of paths whose value read
(resp. children listing) is denied to this session.  Modelled from the
spec: the NodeStore collaborator of §6. -/
structure Store where
  nodes : List (Path × String)
  getDenied : List Path
  childrenDenied : List Path
  deriving DecidableEq, Repr

/-- A fresh coordination-service namespace: the ever-present root node `/`
with an empty value, nothing denied. -/
def Store.initial : Store := ⟨[([], "")], [], []⟩

/-- Keys (paths) of a node list. -/
def keysOf (nodes : List (Path × String)) : List Path := nodes.map Prod.fst

/-- First-match lookup in a node list. -/
def lookupNode : List (Path × String) → Path → Option String
  | [], _ => none
  | (q, v) :: rest, p => if q = p then some v else lookupNode rest p

/-- Value of the node at `p`, ignoring access control. -/
def Store.get? (st : Store) (p : Path) : Option String := lookupNode st.nodes p

/-- Modelled from the spec: the NodeStore `exists(path)` capability (§6),
called by `_create_child` (the source delegates it to the client). -/
def Store.existsP (st : Store) (p : Path) : Bool := (st.get? p).isSome

/-- Does `q` name an immediate child path of `p`. -/
def childOf (p q : Path) : Bool := q.length == p.length + 1 && q.take p.length == p

/-- Immediate child segments of `p`, in node-creation order. -/
def childSegsL (nodes : List (Path × String)) (p : Path) : List String :=
  nodes.filterMap (fun e => if childOf p e.1 then e.1.getLast? else none)

/-- Modelled from the spec: the NodeStore `getChildren(path)` listing (§6),
called by `_dump_children` (the source delegates it to the client). -/
def Store.childSegs (st : Store) (p : Path) : List String := childSegsL st.nodes p

/-- Modelled from the spec: `get` as seen by the exporter's `try`/`except`
(§4.2 step 1) — reading a denied or missing node's value fails, which the
bare `except:` of `_dump_children` turns into `None`. -/
def Store.dumpGet (st : Store) (p : Path) : Option String :=
  if p ∈ st.getDenied then none else st.get? p

/-- Modelled from the spec: `getChildren` with its failure modes (§6) —
denial raises, listing a missing node raises `NoSuchNode`; unlike `get`,
`_dump_children` does not guard this call. -/
def Store.getChildrenE (st : Store) (p : Path) : Except ZKErr (List String) :=
  if p ∈ st.childrenDenied then .error .noAuth
  else if st.existsP p then .ok (st.childSegs p) else .error .noNode

/-- Overwrite the value of node `p` (in place, keeping list order). -/
def Store.setValue (st : Store) (p : Path) (v : String) : Store :=
  { st with nodes := st.nodes.map (fun e => if e.1 = p then (e.1, v) else e) }

/-- The proper ancestors of `p`, shallow to deep (`[]` is everyone's
ancestor except its own). -/
def properAncestors (p : Path) : List Path := (List.range p.length).map (fun i => p.take i)

/-- The ancestors of `p` missing from `nodes`, shallow to deep, with the
empty values `makepath` gives them. -/
def missingAncestors (nodes : List (Path × String)) (p : Path) : List (Path × String) :=
  ((properAncestors p).filter (fun q => lookupNode nodes q = none)).map (fun q => (q, ""))

/-- Modelled from the spec: NodeStore `create` (§6) — fails with NodeExists
on an existing path; with `makepath` it first creates the missing
intermediate nodes with empty values; without it, a missing parent fails
with NoSuchNode. -/
def Store.createNode (st : Store) (p : Path) (v : String) (makepath : Bool) : Except ZKErr Store :=
  if st.existsP p then .error .nodeExists
  else if makepath then
    .ok { st with nodes := st.nodes ++ missingAncestors st.nodes p ++ [(p, v)] }
  else if p = [] || st.existsP p.dropLast then
    .ok { st with nodes := st.nodes ++ [(p, v)] }
  else .error .noNode

/-- Modelled from the spec: NodeStore `update` (§6) — fails with NoSuchNode
on a missing path, else overwrites the value.  The znode version counter is
service metadata not modelled here; the importer always passes the
match-any version -1 (spec §5), which the call records. -/
def Store.updateNode (st : Store) (p : Path) (v : String) (_version : Int) : Except ZKErr Store :=
  if st.existsP p then .ok (st.setValue p v) else .error .noNode

/-- One call issued against the node store, with every argument the caller
passed (used to state which options `_create_child` propagates). -/
inductive NodeOp where
  | createOp (path : Path) (value : String) (acl : Option String)
      (ephemeral : Bool) (sequence : Bool) (makepath : Bool)
  | updateOp (path : Path) (value : String) (version : Int)
  deriving DecidableEq, Repr

/-- Source `_create_child` (zookeeper.py lines 292-299): if the node does not
exist, `create` it with all options; else `update` it (version left at its
default -1).  Returns the new store, the call issued, and the error the
call raised, if any. -/
def createChild (st : Store) (p : Path) (v : String) (o : Opts) :
    Store × NodeOp × Option ZKErr :=
  if !st.existsP p then
    let op := NodeOp.createOp p v o.acl o.ephemeral o.sequence o.makepath
    match st.createNode p v o.makepath with
    | .ok st' => (st', op, none)
    | .error e => (st, op, some e)
  else
    let op := NodeOp.updateOp p v (-1)
    match st.updateNode p v (-1) with
    | .ok st' => (st', op, none)
    | .error e => (st, op, some e)

mutual
/-- Source `_create_children` (zookeeper.py lines 262-290).  The Python body is
four sequential `if`s on the value's shape; per constructor they reduce to:
a falsy value (empty string, empty list, empty dict) creates the node with
an empty value — an empty string then also re-runs the string branch,
updating the node with the same empty value; a non-empty string creates
the node with it; a non-empty list recurses into the same path once per
element; a non-empty dict recurses into `path/child_key` per entry.
An error aborts the remaining walk (exception semantics), keeping the
store mutations already made. -/
def createChildren (st : Store) (p : Path) (v : DV) (o : Opts) : Store × Option ZKErr :=
  match v with
  | .str s =>
    if s = "" then
      let r1 := createChild st p "" o
      match r1.2.2 with
      | some e => (r1.1, some e)
      | none =>
        let r2 := createChild r1.1 p s o
        (r2.1, r2.2.2)
    else
      let r := createChild st p s o
      (r.1, r.2.2)
  | .list l =>
    if l.isEmpty then
      let r := createChild st p "" o
      (r.1, r.2.2)
    else
      createChildrenList st p l o
  | .map m =>
    if m.isEmpty then
      let r := createChild st p "" o
      (r.1, r.2.2)
    else
      createChildrenMap st p m o

/-- The list branch of `_create_children`: each element imported at the
same path, in order, stopping at the first error. -/
def createChildrenList (st : Store) (p : Path) (l : List DV) (o : Opts) : Store × Option ZKErr :=
  match l with
  | [] => (st, none)
  | d :: ds =>
    match createChildren st p d o with
    | (st', none) => createChildrenList st' p ds o
    | (st', some e) => (st', some e)

/-- The dict branch of `_create_children`: each entry imported at
`path/child_key`, stopping at the first error. -/
def createChildrenMap (st : Store) (p : Path) (m : List (String × DV)) (o : Opts) : Store × Option ZKErr :=
  match m with
  | [] => (st, none)
  | (k, w) :: rest =>
    match createChildren st (p ++ [k]) w o with
    | (st', none) => createChildrenMap st' p rest o
    | (st', some e) => (st', some e)
end

/-- Source `initialize_from_json_file` / `initialize_from_yml_file` (zookeeper.py
lines 206-260) after the codec: for each top-level `(root_key, value)`,
`_create_children(root_key, value)` — the top-level node path is the bare
root key. -/
def loadDoc (st : Store) (doc : List (String × DV)) (o : Opts) : Store × Option ZKErr :=
  match doc with
  | [] => (st, none)
  | (k, v) :: rest =>
    match createChildren st [k] v o with
    | (st', none) => loadDoc st' rest o
    | (st', some e) => (st', some e)

/-- Python `dict.__setitem__` on an association list: replace in place if
the key is present (keeping its position), else append. -/
def updateEntry (m : List (String × DV)) (k : String) (d : DV) : List (String × DV) :=
  if m.any (fun e => e.1 = k) then m.map (fun e => if e.1 = k then (k, d) else e)
  else m ++ [(k, d)]

/-- Python `dict.update`: merge every entry of `t` into `m`. -/
def updateAll (m t : List (String × DV)) : List (String × DV) :=
  t.foldl (fun acc e => updateEntry acc e.1 e.2) m

/-- The `cur_path` computation of `_dump_children` (lines 377-379), on
segment paths: the last segment, or the literal "/" when the last segment
is empty or there is none. -/
def pathKeyP (p : Path) : String :=
  match p.getLast? with
  | none => "/"
  | some s => if s = "" then "/" else s

/-- The child loop of `_dump_children` (lines 407-412): recursively dump
each child, skip a `None` (denied/missing) result, merge a present result
into the accumulated children dict; an exception from a recursive call
propagates. -/
def dumpFold (rec : Path → Except ZKErr (Option (List (String × DV))))
    (p : Path) : List String → List (String × DV) → Except ZKErr (List (String × DV))
  | [], acc => .ok acc
  | c :: cs, acc =>
    match rec (p ++ [c]) with
    | .error e => .error e
    | .ok none => dumpFold rec p cs acc
    | .ok (some t) => dumpFold rec p cs (updateAll acc t)

/-- Source `_dump_children` (zookeeper.py lines 374-417).  Here `fuel` bounds the
recursion depth (the Python recursion is bounded by the tree height); with
fuel exhausted the walk reports the subtree absent.  A failed `get` is
absorbed as `None`; `get_children` runs unguarded, so its error — and any
error from a recursive call — propagates.  A childless node dumps as its
scalar value; a node with children and a truthy value dumps as the
two-element list `[value, children-dict]`, else as the children dict;
either way under the single key `cur_path`. -/
def dumpChildren (st : Store) : Nat → Path → Except ZKErr (Option (List (String × DV)))
  | 0, _ => .ok none
  | fuel + 1, path =>
    match st.dumpGet path with
    | none => .ok none
    | some curVal =>
      match st.getChildrenE path with
      | .error e => .error e
      | .ok children =>
        if children.isEmpty then
          .ok (some [(pathKeyP path, .str curVal)])
        else
          match dumpFold (fun q => dumpChildren st fuel q) path children [] with
          | .error e => .error e
          | .ok childrenData =>
            if curVal = "" then .ok (some [(pathKeyP path, .map childrenData)])
            else .ok (some [(pathKeyP path, .list [.str curVal, .map childrenData])])

/-! ### Proof infrastructure: well-formed documents, flattening, writes -/

/-- A document key can serve as a single path segment: non-empty and
slash-free (the spec's "sequence of non-empty segments"). -/
def segOk (k : String) : Bool := !(k = "") && !(k.data.contains '/')

/-- Keys usable as sibling segments: each valid, no duplicates. -/
def keysOk : List String → Bool
  | [] => true
  | k :: ks => segOk k && !(ks.contains k) && keysOk ks

mutual
/-- The scalar-or-map documents of claim C1: every node holds either a
scalar or a non-empty map of children under valid, distinct keys — no
lists, so no node mixes a value with children. -/
def wfV : DV → Bool
  | .str _ => true
  | .list _ => false
  | .map m => !m.isEmpty && keysOk (m.map Prod.fst) && wfEntries m
def wfEntries : List (String × DV) → Bool
  | [] => true
  | (_, w) :: rest => wfV w && wfEntries rest
end

/-- A whole document (top-level Map) of claim C1's shape. -/
def wfDoc (doc : List (String × DV)) : Bool := wfV (.map doc)

mutual
/-- Recursion depth needed to export a value: 1 for a leaf, 1 + the
children's maximum for a map. -/
def dvDepth : DV → Nat
  | .str _ => 1
  | .list l => 1 + dvDepthList l
  | .map m => 1 + dvDepthMap m
def dvDepthList : List DV → Nat
  | [] => 0
  | d :: ds => max (dvDepth d) (dvDepthList ds)
def dvDepthMap : List (String × DV) → Nat
  | [] => 0
  | (_, d) :: ds => max (dvDepth d) (dvDepthMap ds)
end

mutual
/-- The node tree a well-formed value at `p` materializes as, in creation
order: a scalar is one node; a map is its (makepath-created, empty-valued)
own node followed by its entries' trees in order. -/
def flattenV : Path → DV → List (Path × String)
  | p, .str s => [(p, s)]
  | _, .list _ => []
  | p, .map m => (p, "") :: flattenMap p m
def flattenMap : Path → List (String × DV) → List (Path × String)
  | _, [] => []
  | p, (k, w) :: rest => flattenV (p ++ [k]) w ++ flattenMap p rest
end

mutual
/-- The sequence of (path, value) upserts `_create_children` issues for a
value — a function of the document alone, not of the store. -/
def writesV : Path → DV → List (Path × String)
  | p, .str s => if s = "" then [(p, ""), (p, "")] else [(p, s)]
  | p, .list l => if l.isEmpty then [(p, "")] else writesList p l
  | p, .map m => if m.isEmpty then [(p, "")] else writesMap p m
def writesList : Path → List DV → List (Path × String)
  | _, [] => []
  | p, d :: ds => writesV p d ++ writesList p ds
def writesMap : Path → List (String × DV) → List (Path × String)
  | _, [] => []
  | p, (k, w) :: rest => writesV (p ++ [k]) w ++ writesMap p rest
end

/-- The store effect of one `_create_child` call under makepath: set the
value if the node exists, else create it together with its missing
ancestors. -/
def upsert (st : Store) (w : Path × String) : Store :=
  if st.existsP w.1 then st.setValue w.1 w.2
  else { st with nodes := st.nodes ++ missingAncestors st.nodes w.1 ++ [w] }

/-- Apply a write sequence left to right. -/
def applyWrites (st : Store) (ws : List (Path × String)) : Store := ws.foldl upsert st

/-- A valid store: node paths are unique (the store is a tree). -/
def Store.NodupKeys (st : Store) : Prop := (keysOf st.nodes).Nodup

/-- The subtree of `st` under `p` is exactly the well-formed value `v`, and
nothing in it is access-denied: the node's readable value is the scalar
(or "" for a map node), its listable children are the map's keys in order,
and each entry's subtree corresponds in turn. -/
inductive Rep (st : Store) : Path → DV → Prop where
  | leaf {p : Path} {s : String} :
      st.dumpGet p = some s → st.getChildrenE p = .ok [] → Rep st p (.str s)
  | node {p : Path} {m : List (String × DV)} :
      st.dumpGet p = some "" → st.getChildrenE p = .ok (m.map Prod.fst) →
      (∀ k w, (k, w) ∈ m → Rep st (p ++ [k]) w) → Rep st p (.map m)

/-- The export walk finds an accessible subtree at `q` (returns a present
result rather than `None` or an error). -/
def accessibleB (st : Store) (fuel : Nat) (q : Path) : Bool :=
  match dumpChildren st fuel q with
  | .ok (some _) => true
  | _ => false

/-- Keys of a string-keyed association list. -/
def keysStr {α : Type} (l : List (String × α)) : List String := l.map Prod.fst

/-- Model of Python's `path.split("/")` (str.split with an explicit
separator): splitting on every slash, keeping empty fields. -/
def splitSlashAux : List Char → List Char → List String
  | [], acc => [String.mk acc.reverse]
  | ch :: rest, acc =>
    if ch = '/' then String.mk acc.reverse :: splitSlashAux rest []
    else splitSlashAux rest (ch :: acc)

/-- Python `path.split("/")` on the whole string. -/
def pySplitSlash (s : String) : List String := splitSlashAux s.data []

/-- The `cur_path` computation of `_dump_children`, lines 377-379, on the
raw path string: `cur_path = path.split("/")[-1]; if not cur_path:
cur_path = "/"`. -/
def curKeyOf (path : String) : String :=
  let c := (pySplitSlash path).getLast?.getD ""
  if c = "" then "/" else c

/-- The spec's phrase for the top-level key: the last non-empty
slash-separated segment of `root_path`, or "/" when there is none. -/
def lastNonEmptySeg (path : String) : String :=
  ((pySplitSlash path).filter (fun s => !(s = ""))).getLast?.getD "/"

/-- Registry `BACKENDS_TYPE` of guru.py lines 5-7: the fixed backend registry. -/
def BACKENDS_TYPE : List (String × String) :=
  [("zookeeper", "ZKClient"), ("json", "JsonBe"), ("yml", "YmlBe")]

/-- The backend-construction failure (guru.py raises NotImplementedError;
the spec names it UnsupportedBackend). -/
inductive GuruErr where
  | unsupportedBackend (backend : String)
  deriving DecidableEq, Repr

/-- Source `_get_backend_class` (guru.py lines 30-38): an unknown tag fails with
the unsupported-backend error; a known tag resolves to the dotted class
path handed to the importer. -/
def getBackendClass (bt : String) : Except GuruErr String :=
  if (keysStr BACKENDS_TYPE).contains bt then
    .ok ("confguru.backends." ++ ((BACKENDS_TYPE.lookup bt).getD ""))
  else .error (.unsupportedBackend bt)

/-! ### Induction principle for the nested inductive `DV` -/

theorem DV.myInd (motive : DV → Prop)
    (hstr : ∀ s, motive (.str s))
    (hlist : ∀ l, (∀ d, d ∈ l → motive d) → motive (.list l))
    (hmap : ∀ m, (∀ k w, (k, w) ∈ m → motive w) → motive (.map m)) :
    ∀ v, motive v := by
  have key : ∀ n (v : DV), sizeOf v ≤ n → motive v := by
    intro n
    induction n with
    | zero =>
      intro v hv
      cases v <;> simp at hv
    | succ n ih =>
      intro v hv
      cases v with
      | str s => exact hstr s
      | list l =>
        refine hlist l (fun d hd => ih d ?_)
        have h1 : sizeOf d < sizeOf l := List.sizeOf_lt_of_mem hd
        have h2 : sizeOf (DV.list l) = 1 + sizeOf l := by simp
        omega
      | map m =>
        refine hmap m (fun k w hw => ih w ?_)
        have h1 : sizeOf (k, w) < sizeOf m := List.sizeOf_lt_of_mem hw
        have h2 : sizeOf (DV.map m) = 1 + sizeOf m := by simp
        have h3 : sizeOf (k, w) = 1 + sizeOf k + sizeOf w := by simp
        omega
  exact fun v => key (sizeOf v) v le_rfl

/-! ### Association-list and store primitives -/

theorem lookup_eq_none_iff (A : List (Path × String)) (p : Path) :
    lookupNode A p = none ↔ p ∉ keysOf A := by
  induction A with
  | nil => simp [lookupNode, keysOf]
  | cons e rest ih =>
    obtain ⟨q, v⟩ := e
    by_cases h : q = p
    · subst h
      simp [lookupNode, keysOf]
    · simp [lookupNode, keysOf, h, ih, Ne.symm h]

theorem lookup_isSome_iff (A : List (Path × String)) (p : Path) :
    (lookupNode A p).isSome = true ↔ p ∈ keysOf A := by
  rw [Option.isSome_iff_ne_none]
  constructor
  · intro h
    by_contra hc
    exact h ((lookup_eq_none_iff A p).2 hc)
  · intro h hc
    exact (lookup_eq_none_iff A p).1 hc h

theorem existsP_iff_mem (st : Store) (p : Path) :
    st.existsP p = true ↔ p ∈ keysOf st.nodes := by
  simpa [Store.existsP, Store.get?] using lookup_isSome_iff st.nodes p

theorem lookup_append_of_not_mem {A : List (Path × String)} (B : List (Path × String))
    {p : Path} (h : p ∉ keysOf A) : lookupNode (A ++ B) p = lookupNode B p := by
  induction A with
  | nil => rfl
  | cons e rest ih =>
    obtain ⟨q, v⟩ := e
    simp only [keysOf, List.map_cons, List.mem_cons, not_or] at h
    simp [lookupNode, Ne.symm h.1, ih (by simpa [keysOf] using h.2)]

theorem lookup_append_left {A : List (Path × String)} (B : List (Path × String))
    {p : Path} (h : p ∈ keysOf A) : lookupNode (A ++ B) p = lookupNode A p := by
  induction A with
  | nil => simp [keysOf] at h
  | cons e rest ih =>
    obtain ⟨q, v⟩ := e
    by_cases hq : q = p
    · simp [lookupNode, hq]
    · simp only [keysOf, List.map_cons, List.mem_cons] at h
      rcases h with h | h
      · exact absurd h.symm hq
      · simp [lookupNode, hq, ih (by simpa [keysOf] using h)]

theorem childOf_iff (p q : Path) : childOf p q = true ↔ ∃ s, q = p ++ [s] := by
  constructor
  · intro h
    simp only [childOf, Bool.and_eq_true, beq_iff_eq] at h
    obtain ⟨hlen, htake⟩ := h
    have hsplit := List.take_append_drop p.length q
    have hdlen : (q.drop p.length).length = 1 := by
      rw [List.length_drop, hlen]; omega
    obtain ⟨x, hx⟩ := List.length_eq_one.1 hdlen
    exact ⟨x, by rw [← hsplit, htake, hx]⟩
  · rintro ⟨s, rfl⟩
    simp [childOf, List.take_left]

theorem childSegsL_append (A B : List (Path × String)) (p : Path) :
    childSegsL (A ++ B) p = childSegsL A p ++ childSegsL B p := by
  simp [childSegsL, List.filterMap_append]

theorem childSegsL_eq_keys (A : List (Path × String)) (p : Path) :
    childSegsL A p = (keysOf A).filterMap (fun q => if childOf p q then q.getLast? else none) := by
  induction A with
  | nil => rfl
  | cons e rest ih =>
    simp [childSegsL, keysOf, List.filterMap_cons] at ih ⊢
    by_cases h : childOf p e.1 <;> simp [h, ih, childSegsL, keysOf]

theorem childSegsL_nil_of_no_ext (A : List (Path × String)) (p : Path)
    (h : ∀ q, q ∈ keysOf A → ¬ p <+: q) : childSegsL A p = [] := by
  induction A with
  | nil => rfl
  | cons e rest ih =>
    have he : ¬ childOf p e.1 = true := by
      intro hc
      obtain ⟨s, hs⟩ := (childOf_iff p e.1).1 hc
      exact h e.1 (by simp [keysOf]) (hs ▸ List.prefix_append p [s])
    simp only [childSegsL, List.filterMap_cons]
    rw [if_neg he]
    exact ih (fun q hq => h q (by simp [keysOf] at hq ⊢; right; exact hq))

theorem pathKeyP_append (p : Path) (k : String) (hk : ¬ k = "") :
    pathKeyP (p ++ [k]) = k := by
  simp [pathKeyP, List.getLast?_concat, hk]

/-! ### setValue, ancestors, and the upsert effect of `_create_child` -/

/-- List-level value overwrite (the `nodes` effect of `Store.setValue`). -/
def svL (nodes : List (Path × String)) (p : Path) (v : String) : List (Path × String) :=
  nodes.map (fun e => if e.1 = p then (e.1, v) else e)

theorem setValue_def (st : Store) (p : Path) (v : String) :
    st.setValue p v = { st with nodes := svL st.nodes p v } := rfl

theorem keysOf_svL (A : List (Path × String)) (p : Path) (v : String) :
    keysOf (svL A p v) = keysOf A := by
  induction A with
  | nil => rfl
  | cons e rest ih =>
    by_cases h : e.1 = p <;> simp [svL, keysOf, h] at ih ⊢ <;> exact ih

theorem svL_append (A B : List (Path × String)) (p : Path) (v : String) :
    svL (A ++ B) p v = svL A p v ++ svL B p v := by
  simp [svL]

theorem svL_not_mem {A : List (Path × String)} {p : Path} (v : String)
    (h : p ∉ keysOf A) : svL A p v = A := by
  induction A with
  | nil => rfl
  | cons e rest ih =>
    simp only [keysOf, List.map_cons, List.mem_cons, not_or] at h
    simp [svL] at ih ⊢
    exact ⟨fun he => absurd he (Ne.symm h.1), ih (by simpa [keysOf] using h.2)⟩

theorem lookupNode_cons (q : Path) (u : String) (rest : List (Path × String)) (p : Path) :
    lookupNode ((q, u) :: rest) p = if q = p then some u else lookupNode rest p := rfl

theorem svL_cons (q : Path) (u : String) (rest : List (Path × String)) (p : Path) (v : String) :
    svL ((q, u) :: rest) p v = (if q = p then (q, v) else (q, u)) :: svL rest p v := rfl

theorem lookup_svL_self {A : List (Path × String)} {p : Path} (v : String)
    (h : p ∈ keysOf A) : lookupNode (svL A p v) p = some v := by
  induction A with
  | nil => simp [keysOf] at h
  | cons e rest ih =>
    obtain ⟨q, u⟩ := e
    rw [svL_cons]
    by_cases he : q = p
    · subst he
      rw [if_pos rfl, lookupNode_cons, if_pos rfl]
    · have hm : p ∈ keysOf rest := by
        simp only [keysOf, List.map_cons, List.mem_cons] at h
        rcases h with h | h
        · exact absurd h.symm he
        · exact h
      rw [if_neg he, lookupNode_cons, if_neg he]
      exact ih hm

theorem lookup_svL_ne {q p : Path} (A : List (Path × String)) (v : String)
    (h : q ≠ p) : lookupNode (svL A q v) p = lookupNode A p := by
  induction A with
  | nil => rfl
  | cons e rest ih =>
    obtain ⟨r, u⟩ := e
    rw [svL_cons, lookupNode_cons]
    by_cases he : r = q
    · subst he
      rw [if_pos rfl, lookupNode_cons, if_neg h, if_neg h]
      exact ih
    · rw [if_neg he, lookupNode_cons]
      by_cases hp : r = p
      · rw [if_pos hp, if_pos hp]
      · rw [if_neg hp, if_neg hp]
        exact ih

theorem properAncestors_concat (p : Path) (k : String) :
    properAncestors (p ++ [k]) = properAncestors p ++ [p] := by
  unfold properAncestors
  rw [List.length_append, List.length_singleton, List.range_succ, List.map_append]
  congr 1
  · apply List.map_congr_left
    intro i hi
    simp only [List.mem_range] at hi
    exact List.take_append_of_le_length (le_of_lt hi)
  · simp [List.take_left]

theorem mem_properAncestors {q p : Path} (h : q ∈ properAncestors p) :
    q <+: p ∧ q.length < p.length := by
  simp only [properAncestors, List.mem_map, List.mem_range] at h
  obtain ⟨i, hi, rfl⟩ := h
  have htp : p.take i <+: p := List.take_prefix i p
  refine ⟨htp, ?_⟩
  simp only [List.length_take]
  omega

theorem missingAncestors_concat (nodes : List (Path × String)) (p : Path) (k : String)
    (hp : lookupNode nodes p = none) :
    missingAncestors nodes (p ++ [k]) = missingAncestors nodes p ++ [(p, "")] := by
  unfold missingAncestors
  rw [properAncestors_concat, List.filter_append, List.map_append]
  congr 1
  simp [List.filter, hp]

theorem missingAncestors_eq_nil {nodes : List (Path × String)} {p : Path}
    (h : ∀ q, q ∈ properAncestors p → q ∈ keysOf nodes) :
    missingAncestors nodes p = [] := by
  unfold missingAncestors
  rw [List.map_eq_nil_iff, List.filter_eq_nil_iff]
  intro q hq
  simp only [decide_eq_true_eq]
  intro hn
  exact absurd (h q hq) (fun hm => (lookup_eq_none_iff nodes q).1 hn hm)

theorem keysOf_missingAncestors (nodes : List (Path × String)) (p : Path) :
    keysOf (missingAncestors nodes p) =
      (properAncestors p).filter (fun q => decide (lookupNode nodes q = none)) := by
  simp only [missingAncestors, keysOf, List.map_map]
  exact List.map_id _

theorem createChild_absent {st : Store} {p : Path} (v : String) (o : Opts)
    (hp : st.existsP p = false) (hmk : o.makepath = true) :
    createChild st p v o =
      ({ st with nodes := st.nodes ++ missingAncestors st.nodes p ++ [(p, v)] },
        .createOp p v o.acl o.ephemeral o.sequence o.makepath, none) := by
  simp [createChild, Store.createNode, hp, hmk]

theorem createChild_present {st : Store} {p : Path} (v : String) (o : Opts)
    (hp : st.existsP p = true) :
    createChild st p v o = (st.setValue p v, .updateOp p v (-1), none) := by
  simp [createChild, Store.updateNode, hp]

theorem createChild_upsert {st : Store} {p : Path} (v : String) (o : Opts)
    (hmk : o.makepath = true) :
    (createChild st p v o).1 = upsert st (p, v) ∧ (createChild st p v o).2.2 = none := by
  by_cases hp : st.existsP p
  · rw [createChild_present v o hp]
    simp [upsert, hp]
  · rw [createChild_absent v o (by simpa using hp) hmk]
    simp [upsert, hp]

/-! ### Keys of flattened trees, well-formedness decompositions -/

theorem keysOf_append (A B : List (Path × String)) :
    keysOf (A ++ B) = keysOf A ++ keysOf B := by
  simp [keysOf]

theorem missingAncestors_nil_iff (nodes : List (Path × String)) (p : Path) :
    missingAncestors nodes p = [] ↔
      ∀ q, q ∈ properAncestors p → q ∈ keysOf nodes := by
  unfold missingAncestors
  rw [List.map_eq_nil_iff, List.filter_eq_nil_iff]
  constructor
  · intro h q hq
    have := h q hq
    simp only [decide_eq_true_eq] at this
    by_contra hc
    exact this ((lookup_eq_none_iff nodes q).2 hc)
  · intro h q hq
    simp only [decide_eq_true_eq]
    intro hn
    exact (lookup_eq_none_iff nodes q).1 hn (h q hq)

theorem not_mem_keys_missingAncestors (nodes : List (Path × String)) (p : Path) :
    p ∉ keysOf (missingAncestors nodes p) := by
  rw [keysOf_missingAncestors]
  intro h
  have := (List.mem_filter.1 h).1
  exact absurd rfl (Nat.ne_of_lt (mem_properAncestors this).2)

theorem wfV_map_iff (m : List (String × DV)) :
    wfV (.map m) = true ↔
      m ≠ [] ∧ keysOk (m.map Prod.fst) = true ∧ wfEntries m = true := by
  simp [wfV, List.isEmpty_iff, and_assoc]

theorem wfEntries_cons (k : String) (w : DV) (rest : List (String × DV)) :
    wfEntries ((k, w) :: rest) = true ↔ wfV w = true ∧ wfEntries rest = true := by
  simp [wfEntries]

theorem keysOk_cons (k : String) (ks : List String) :
    keysOk (k :: ks) = true ↔ segOk k = true ∧ k ∉ ks ∧ keysOk ks = true := by
  simp [keysOk, and_assoc]

theorem segOk_ne_empty {k : String} (h : segOk k = true) : ¬ k = "" := by
  simp only [segOk, Bool.and_eq_true, Bool.not_eq_eq_eq_not, Bool.not_true, decide_eq_false_iff_not] at h
  exact h.1

theorem flattenMap_keys_extend_aux (p : Path) :
    ∀ (m : List (String × DV)),
      (∀ k w, (k, w) ∈ m → ∀ q, q ∈ keysOf (flattenV (p ++ [k]) w) → (p ++ [k]) <+: q) →
      ∀ q, q ∈ keysOf (flattenMap p m) → p <+: q := by
  intro m
  induction m with
  | nil =>
    intro _ q h
    simp [flattenMap, keysOf] at h
  | cons e rest ihm =>
    obtain ⟨k, w⟩ := e
    intro hih q h
    rw [flattenMap, keysOf_append] at h
    rcases List.mem_append.1 h with h1 | h1
    · exact (List.prefix_append p [k]).trans (hih k w (List.mem_cons_self _ _) q h1)
    · exact ihm (fun k' w' hm => hih k' w' (List.mem_cons_of_mem _ hm)) q h1

theorem flattenV_keys_extend :
    ∀ v p q, q ∈ keysOf (flattenV p v) → p <+: q := by
  refine DV.myInd _ ?_ ?_ ?_
  · intro s p q h
    simp only [flattenV, keysOf, List.map_cons, List.map_nil, List.mem_singleton] at h
    exact h ▸ List.prefix_refl q
  · intro l _ p q h
    simp [flattenV, keysOf] at h
  · intro m ih p q h
    simp only [flattenV, keysOf, List.map_cons, List.mem_cons] at h
    rcases h with h | h
    · exact h ▸ List.prefix_refl q
    · exact flattenMap_keys_extend_aux p m (fun k w hm => ih k w hm (p ++ [k])) q h

theorem flattenMap_keys_extend :
    ∀ (m : List (String × DV)) p q, q ∈ keysOf (flattenMap p m) →
      ∃ k, k ∈ m.map Prod.fst ∧ (p ++ [k]) <+: q := by
  intro m
  induction m with
  | nil =>
    intro p q h
    simp [flattenMap, keysOf] at h
  | cons e rest ihm =>
    obtain ⟨k, w⟩ := e
    intro p q h
    rw [flattenMap, keysOf_append] at h
    rcases List.mem_append.1 h with h1 | h1
    · exact ⟨k, by simp, flattenV_keys_extend w (p ++ [k]) q h1⟩
    · obtain ⟨k', hk', hpre⟩ := ihm p q h1
      exact ⟨k', by simp [hk'], hpre⟩

theorem seg_eq_of_both_extend {p : Path} {a b : String} {q : Path}
    (ha : (p ++ [a]) <+: q) (hb : (p ++ [b]) <+: q) : a = b := by
  have hlen : (p ++ [a]).length ≤ (p ++ [b]).length := by simp
  have h1 : (p ++ [a]) <+: (p ++ [b]) := List.prefix_of_prefix_length_le ha hb hlen
  have h2 : p ++ [a] = p ++ [b] := h1.eq_of_length (by simp)
  simpa using h2

/-! ### The store a well-formed import produces -/

theorem not_mem_of_existsP_false {st : Store} {p : Path}
    (hex : st.existsP p = false) : p ∉ keysOf st.nodes :=
  fun hm => absurd ((existsP_iff_mem st p).2 hm) (by simp [hex])

theorem createChildren_str_empty {st : Store} {p : Path} (o : Opts)
    (hmk : o.makepath = true) (hex : st.existsP p = false) :
    createChildren st p (.str "") o =
      ({ st with nodes := st.nodes ++ missingAncestors st.nodes p ++ [(p, "")] }, none) := by
  have h1 := createChild_absent "" o hex hmk
  have hex1 : Store.existsP
      { st with nodes := st.nodes ++ missingAncestors st.nodes p ++ [(p, "")] } p = true := by
    rw [existsP_iff_mem]
    simp [keysOf_append, keysOf]
  have h2 := @createChild_present
      { st with nodes := st.nodes ++ missingAncestors st.nodes p ++ [(p, "")] } p "" o hex1
  rw [createChildren]
  rw [if_pos rfl]
  simp only [h1]
  simp only [h2]
  have hnodes : svL (st.nodes ++ missingAncestors st.nodes p ++ [(p, "")]) p "" =
      st.nodes ++ missingAncestors st.nodes p ++ [(p, "")] := by
    rw [svL_append, svL_append]
    rw [svL_not_mem "" (not_mem_of_existsP_false hex),
        svL_not_mem "" (not_mem_keys_missingAncestors st.nodes p)]
    rw [svL_cons, if_pos rfl]
    rfl
  rw [setValue_def]
  simp only [hnodes]

theorem createChildren_str_ne {st : Store} {p : Path} (s : String) (o : Opts)
    (hs : ¬ s = "") (hmk : o.makepath = true) (hex : st.existsP p = false) :
    createChildren st p (.str s) o =
      ({ st with nodes := st.nodes ++ missingAncestors st.nodes p ++ [(p, s)] }, none) := by
  rw [createChildren]
  rw [if_neg hs]
  simp only [createChild_absent s o hex hmk]

theorem createChildren_flatten :
    ∀ (v : DV), wfV v = true → ∀ (o : Opts), o.makepath = true →
      ∀ (p : Path) (st : Store), (∀ q, q ∈ keysOf st.nodes → ¬ p <+: q) →
      createChildren st p v o =
        ({ st with nodes := st.nodes ++ missingAncestors st.nodes p ++ flattenV p v }, none) := by
  refine DV.myInd _ ?_ ?_ ?_
  · intro s _ o hmk p st hnd
    have hex : st.existsP p = false := by
      rw [Bool.eq_false_iff]
      intro hx
      exact hnd p ((existsP_iff_mem st p).1 hx) (List.prefix_refl p)
    by_cases hs : s = ""
    · subst hs
      rw [createChildren_str_empty o hmk hex]
      rfl
    · rw [createChildren_str_ne s o hs hmk hex]
      rfl
  · intro l _ hwf
    simp [wfV] at hwf
  · intro m ih hwf o hmk p st hnd
    obtain ⟨hne, hkeys, hentries⟩ := (wfV_map_iff m).1 hwf
    have hex : st.existsP p = false := by
      rw [Bool.eq_false_iff]
      intro hx
      exact hnd p ((existsP_iff_mem st p).1 hx) (List.prefix_refl p)
    have hplook : lookupNode st.nodes p = none :=
      (lookup_eq_none_iff st.nodes p).2 (not_mem_of_existsP_false hex)
    -- the fold over entries whose ancestors are already present
    have inner : ∀ (m' : List (String × DV)) (st' : Store),
        (∀ k w, (k, w) ∈ m' → (k, w) ∈ m) →
        keysOk (m'.map Prod.fst) = true →
        wfEntries m' = true →
        (∀ k w, (k, w) ∈ m' → missingAncestors st'.nodes (p ++ [k]) = []) →
        (∀ k w, (k, w) ∈ m' → ∀ q, q ∈ keysOf st'.nodes → ¬ (p ++ [k]) <+: q) →
        createChildrenMap st' p m' o =
          ({ st' with nodes := st'.nodes ++ flattenMap p m' }, none) := by
      intro m'
      induction m' with
      | nil =>
        intro st' _ _ _ _ _
        rw [createChildrenMap, flattenMap]
        simp
      | cons e rest ihm =>
        obtain ⟨k, w⟩ := e
        intro st' hsub hko hwe hanc hnd'
        obtain ⟨hwfw, hwfrest⟩ := (wfEntries_cons k w rest).1 hwe
        obtain ⟨hsk, hknotin, hkorest⟩ := (keysOk_cons k (rest.map Prod.fst)).1 hko
        have hmem0 : (k, w) ∈ (k, w) :: rest := List.mem_cons_self _ _
        have step := ih k w (hsub k w hmem0) hwfw o hmk (p ++ [k]) st'
          (hnd' k w hmem0)
        rw [hanc k w hmem0] at step
        simp only [List.append_nil] at step
        rw [createChildrenMap]
        simp only [step]
        have hrec := ihm ({ st' with nodes := st'.nodes ++ flattenV (p ++ [k]) w })
          (fun k' w' hm => hsub k' w' (List.mem_cons_of_mem _ hm))
          hkorest hwfrest
          (fun k' w' hm => by
            rw [missingAncestors_nil_iff]
            intro q hq
            have h0 : q ∈ keysOf st'.nodes :=
              (missingAncestors_nil_iff st'.nodes (p ++ [k'])).1
                (hanc k' w' (List.mem_cons_of_mem _ hm)) q hq
            simp only [keysOf_append]
            exact List.mem_append_left _ h0)
          (fun k' w' hm q hq hpre => by
            simp only [keysOf_append] at hq
            rcases List.mem_append.1 hq with hq | hq
            · exact hnd' k' w' (List.mem_cons_of_mem _ hm) q hq hpre
            · have hk1 : (p ++ [k]) <+: q := flattenV_keys_extend w (p ++ [k]) q hq
              have : k' = k := seg_eq_of_both_extend hpre hk1
              subst this
              exact hknotin (List.mem_map_of_mem Prod.fst hm))
        rw [hrec]
        rw [flattenMap]
        simp [List.append_assoc]
    -- peel off the first entry, which creates p and its missing ancestors
    rw [createChildren]
    rw [if_neg (by simpa [List.isEmpty_iff] using hne)]
    cases m with
    | nil => exact absurd rfl hne
    | cons e rest =>
      obtain ⟨k1, w1⟩ := e
      obtain ⟨hwfw1, hwfrest⟩ := (wfEntries_cons k1 w1 rest).1 hentries
      obtain ⟨hsk1, hk1notin, hkorest⟩ :=
        (keysOk_cons k1 (rest.map Prod.fst)).1 (by simpa using hkeys)
      have hmem0 : (k1, w1) ∈ (k1, w1) :: rest := List.mem_cons_self _ _
      have hnd1 : ∀ q, q ∈ keysOf st.nodes → ¬ (p ++ [k1]) <+: q := by
        intro q hq hpre
        exact hnd q hq ((List.prefix_append p [k1]).trans hpre)
      have step := ih k1 w1 hmem0 hwfw1 o hmk (p ++ [k1]) st hnd1
      rw [missingAncestors_concat st.nodes p k1 hplook] at step
      rw [createChildrenMap]
      simp only [step]
      set st1 : Store := { st with nodes :=
        st.nodes ++ (missingAncestors st.nodes p ++ [(p, "")]) ++ flattenV (p ++ [k1]) w1 }
        with hst1
      have hkeys1 : keysOf st1.nodes =
          keysOf st.nodes ++ (keysOf (missingAncestors st.nodes p) ++ [p]) ++
            keysOf (flattenV (p ++ [k1]) w1) := by
        rw [hst1]
        simp [keysOf_append, keysOf]
      have hrec := inner rest st1
        (fun k' w' hm => List.mem_cons_of_mem _ hm)
        hkorest hwfrest
        (fun k' w' hm => by
          rw [missingAncestors_nil_iff]
          intro q hq
          rw [properAncestors_concat] at hq
          rw [hkeys1]
          rcases List.mem_append.1 hq with hq | hq
          · -- q a proper ancestor of p: in st or among the created ancestors
            by_cases hql : lookupNode st.nodes q = none
            · have : q ∈ keysOf (missingAncestors st.nodes p) := by
                rw [keysOf_missingAncestors]
                exact List.mem_filter.2 ⟨hq, by simp [hql]⟩
              exact List.mem_append_left _ (List.mem_append_right _
                (List.mem_append_left _ this))
            · have : q ∈ keysOf st.nodes := by
                by_contra hc
                exact hql ((lookup_eq_none_iff st.nodes q).2 hc)
              exact List.mem_append_left _ (List.mem_append_left _ this)
          · -- q = p
            simp only [List.mem_singleton] at hq
            subst hq
            exact List.mem_append_left _ (List.mem_append_right _
              (List.mem_append_right _ (by simp)))
        )
        (fun k' w' hm q hq hpre => by
          rw [hkeys1] at hq
          have hqlen : p.length + 1 ≤ q.length := by
            have := hpre.length_le
            simpa using this
          rcases List.mem_append.1 hq with hq | hq
          · rcases List.mem_append.1 hq with hq | hq
            · exact hnd q hq ((List.prefix_append p [k']).trans hpre)
            · rcases List.mem_append.1 hq with hq | hq
              · -- q is a missing ancestor of p: too short
                rw [keysOf_missingAncestors] at hq
                have := (mem_properAncestors (List.mem_filter.1 hq).1).2
                omega
              · simp only [List.mem_singleton] at hq
                subst hq
                omega
          · have hk1p : (p ++ [k1]) <+: q := flattenV_keys_extend w1 (p ++ [k1]) q hq
            have : k' = k1 := seg_eq_of_both_extend hpre hk1p
            subst this
            exact hk1notin (List.mem_map_of_mem Prod.fst hm))
      rw [hrec]
      rw [hst1]
      rw [flattenV, flattenMap]
      simp [List.append_assoc]

theorem createChildrenMap_flatten (o : Opts) (hmk : o.makepath = true) :
    ∀ (m : List (String × DV)) (p : Path) (st : Store),
      keysOk (m.map Prod.fst) = true →
      wfEntries m = true →
      (∀ k w, (k, w) ∈ m → missingAncestors st.nodes (p ++ [k]) = []) →
      (∀ k w, (k, w) ∈ m → ∀ q, q ∈ keysOf st.nodes → ¬ (p ++ [k]) <+: q) →
      createChildrenMap st p m o = ({ st with nodes := st.nodes ++ flattenMap p m }, none) := by
  intro m
  induction m with
  | nil =>
    intro p st _ _ _ _
    rw [createChildrenMap, flattenMap]
    simp
  | cons e rest ihm =>
    obtain ⟨k, w⟩ := e
    intro p st hko hwe hanc hnd'
    obtain ⟨hwfw, hwfrest⟩ := (wfEntries_cons k w rest).1 hwe
    obtain ⟨hsk, hknotin, hkorest⟩ := (keysOk_cons k (rest.map Prod.fst)).1 hko
    have hmem0 : (k, w) ∈ (k, w) :: rest := List.mem_cons_self _ _
    have step := createChildren_flatten w hwfw o hmk (p ++ [k]) st (hnd' k w hmem0)
    rw [hanc k w hmem0] at step
    simp only [List.append_nil] at step
    rw [createChildrenMap]
    simp only [step]
    have hrec := ihm p ({ st with nodes := st.nodes ++ flattenV (p ++ [k]) w })
      hkorest hwfrest
      (fun k' w' hm => by
        rw [missingAncestors_nil_iff]
        intro q hq
        have h0 : q ∈ keysOf st.nodes :=
          (missingAncestors_nil_iff st.nodes (p ++ [k'])).1
            (hanc k' w' (List.mem_cons_of_mem _ hm)) q hq
        simp only [keysOf_append]
        exact List.mem_append_left _ h0)
      (fun k' w' hm q hq hpre => by
        simp only [keysOf_append] at hq
        rcases List.mem_append.1 hq with hq | hq
        · exact hnd' k' w' (List.mem_cons_of_mem _ hm) q hq hpre
        · have hk1 : (p ++ [k]) <+: q := flattenV_keys_extend w (p ++ [k]) q hq
          have : k' = k := seg_eq_of_both_extend hpre hk1
          subst this
          exact hknotin (List.mem_map_of_mem Prod.fst hm))
    rw [hrec]
    rw [flattenMap]
    simp [List.append_assoc]

theorem loadDoc_eq_createChildrenMap (doc : List (String × DV)) (o : Opts) :
    ∀ st : Store, loadDoc st doc o = createChildrenMap st [] doc o := by
  induction doc with
  | nil => intro st; rfl
  | cons e rest ih =>
    obtain ⟨k, v⟩ := e
    intro st
    rw [loadDoc, createChildrenMap]
    simp only [List.nil_append]
    rcases hcc : createChildren st [k] v o with ⟨st', err⟩
    cases err with
    | none => simp only; exact ih st'
    | some e => rfl

/-- The store state a well-formed document import leaves behind, starting
from a fresh namespace: the root followed by the document's flattened node
tree in document order. -/
theorem loadDoc_initial (doc : List (String × DV)) (hwf : wfDoc doc = true) :
    loadDoc Store.initial doc defaultOpts =
      (⟨([], "") :: flattenMap [] doc, [], []⟩, none) := by
  obtain ⟨hne, hkeys, hentries⟩ := (wfV_map_iff doc).1 hwf
  rw [loadDoc_eq_createChildrenMap]
  rw [createChildrenMap_flatten defaultOpts rfl doc [] Store.initial hkeys hentries
    (fun k w hm => by
      rw [missingAncestors_nil_iff]
      intro q hq
      simp only [List.nil_append] at hq
      have : properAncestors [k] = [([] : Path)] := rfl
      rw [this] at hq
      simp only [List.mem_singleton] at hq
      subst hq
      simp [Store.initial, keysOf])
    (fun k w hm q hq hpre => by
      simp only [Store.initial, keysOf, List.map_cons, List.map_nil,
        List.mem_singleton] at hq
      subst hq
      have := hpre.length_le
      simp at this)]
  rfl

/-! ### Children listings of flattened trees -/

theorem flattenMap_append (p : Path) (m1 m2 : List (String × DV)) :
    flattenMap p (m1 ++ m2) = flattenMap p m1 ++ flattenMap p m2 := by
  induction m1 with
  | nil => rfl
  | cons e rest ih =>
    obtain ⟨k, w⟩ := e
    rw [List.cons_append, flattenMap, flattenMap, ih, List.append_assoc]

theorem childSegsL_nil_of_deep (A : List (Path × String)) (p : Path)
    (h : ∀ q, q ∈ keysOf A → p.length + 1 < q.length) : childSegsL A p = [] := by
  induction A with
  | nil => rfl
  | cons e rest ih =>
    have he : ¬ childOf p e.1 = true := by
      intro hc
      simp only [childOf, Bool.and_eq_true, beq_iff_eq] at hc
      have := h e.1 (by simp [keysOf])
      omega
    simp only [childSegsL, List.filterMap_cons]
    rw [if_neg he]
    exact ih (fun q hq => h q (by simp [keysOf] at hq ⊢; right; exact hq))

theorem childSegsL_cons_hit {p q : Path} {s : String} (u : String)
    (rest : List (Path × String)) (hc : childOf p q = true) (hl : q.getLast? = some s) :
    childSegsL ((q, u) :: rest) p = s :: childSegsL rest p := by
  simp only [childSegsL, List.filterMap_cons]
  rw [if_pos hc, hl]

theorem childSegsL_cons_miss {p q : Path} (u : String)
    (rest : List (Path × String)) (hc : ¬ childOf p q = true) :
    childSegsL ((q, u) :: rest) p = childSegsL rest p := by
  simp only [childSegsL, List.filterMap_cons]
  rw [if_neg hc]

theorem childOf_concat (p : Path) (k : String) : childOf p (p ++ [k]) = true :=
  (childOf_iff p (p ++ [k])).2 ⟨k, rfl⟩

theorem childSegsL_flattenV_at_parent (w : DV) (hwf : wfV w = true)
    (p : Path) (k : String) :
    childSegsL (flattenV (p ++ [k]) w) p = [k] := by
  cases w with
  | str s =>
    rw [flattenV, childSegsL_cons_hit s [] (childOf_concat p k) (List.getLast?_concat _)]
    rfl
  | list l => simp [wfV] at hwf
  | map l =>
    rw [flattenV, childSegsL_cons_hit "" _ (childOf_concat p k) (List.getLast?_concat _)]
    have hdeep : childSegsL (flattenMap (p ++ [k]) l) p = [] := by
      apply childSegsL_nil_of_deep
      intro q hq
      obtain ⟨k', _, hpre⟩ := flattenMap_keys_extend l (p ++ [k]) q hq
      have := hpre.length_le
      simp at this
      omega
    rw [hdeep]

theorem childSegsL_flattenMap :
    ∀ (m : List (String × DV)) (p : Path), wfEntries m = true →
      childSegsL (flattenMap p m) p = m.map Prod.fst := by
  intro m
  induction m with
  | nil => intro p _; rfl
  | cons e rest ih =>
    obtain ⟨k, w⟩ := e
    intro p hwe
    obtain ⟨hwfw, hwfrest⟩ := (wfEntries_cons k w rest).1 hwe
    rw [flattenMap, childSegsL_append, childSegsL_flattenV_at_parent w hwfw p k, ih p hwfrest]
    rfl

theorem keysOk_nodup : ∀ ks : List String, keysOk ks = true → ks.Nodup := by
  intro ks
  induction ks with
  | nil => intro _; exact List.nodup_nil
  | cons k rest ih =>
    intro h
    obtain ⟨_, hnotin, hrest⟩ := (keysOk_cons k rest).1 h
    exact List.nodup_cons.2 ⟨hnotin, ih hrest⟩

theorem wfEntries_mem :
    ∀ (m : List (String × DV)) (k : String) (w : DV), wfEntries m = true →
      (k, w) ∈ m → wfV w = true := by
  intro m
  induction m with
  | nil => intro k w _ hm; simp at hm
  | cons e rest ih =>
    obtain ⟨k0, w0⟩ := e
    intro k w hwe hm
    obtain ⟨hw0, hrest⟩ := (wfEntries_cons k0 w0 rest).1 hwe
    rcases List.mem_cons.1 hm with h | h
    · cases h
      exact hw0
    · exact ih k w hrest h

/-! ### The flatten store represents the document -/

theorem childOf_self_false (p : Path) : ¬ childOf p p = true := by
  simp [childOf]

theorem repOfFlatten :
    ∀ (v : DV), wfV v = true → ∀ (p : Path) (A B : List (Path × String)),
      (∀ q, q ∈ keysOf A ++ keysOf B → ¬ p <+: q) →
      Rep ⟨A ++ flattenV p v ++ B, [], []⟩ p v := by
  refine DV.myInd _ ?_ ?_ ?_
  · -- scalar leaf
    intro s _ p A B hq
    have hpA : p ∉ keysOf A :=
      fun hm => hq p (List.mem_append_left _ hm) (List.prefix_refl p)
    rw [flattenV]
    have hex : Store.existsP ⟨A ++ [(p, s)] ++ B, [], []⟩ p = true := by
      rw [existsP_iff_mem]
      show p ∈ keysOf (A ++ [(p, s)] ++ B)
      rw [keysOf_append, keysOf_append]
      have hmid : p ∈ keysOf [(p, s)] := by simp [keysOf]
      exact List.mem_append_left _ (List.mem_append_right _ hmid)
    refine Rep.leaf ?_ ?_
    · show Store.dumpGet _ p = some s
      unfold Store.dumpGet
      rw [if_neg (List.not_mem_nil p)]
      show lookupNode (A ++ [(p, s)] ++ B) p = some s
      rw [List.append_assoc, lookup_append_of_not_mem _ hpA]
      show lookupNode ((p, s) :: B) p = some s
      rw [lookupNode_cons, if_pos rfl]
    · show Store.getChildrenE _ p = .ok []
      unfold Store.getChildrenE
      rw [if_neg (List.not_mem_nil p)]
      rw [if_pos hex]
      have hseg : Store.childSegs ⟨A ++ [(p, s)] ++ B, [], []⟩ p = [] := by
        show childSegsL (A ++ [(p, s)] ++ B) p = []
        rw [childSegsL_append, childSegsL_append]
        rw [childSegsL_nil_of_no_ext A p
          (fun q hm => hq q (List.mem_append_left _ hm))]
        rw [childSegsL_cons_miss s [] (childOf_self_false p)]
        rw [childSegsL_nil_of_no_ext B p
          (fun q hm => hq q (List.mem_append_right _ hm))]
        rfl
      rw [hseg]
  · -- lists are not well-formed
    intro l _ hwf
    simp [wfV] at hwf
  · -- map node
    intro m ih hwf p A B hq
    obtain ⟨hne, hkeys, hentries⟩ := (wfV_map_iff m).1 hwf
    have hpA : p ∉ keysOf A :=
      fun hm => hq p (List.mem_append_left _ hm) (List.prefix_refl p)
    rw [flattenV]
    have hex : Store.existsP ⟨A ++ ((p, "") :: flattenMap p m) ++ B, [], []⟩ p = true := by
      rw [existsP_iff_mem]
      show p ∈ keysOf (A ++ ((p, "") :: flattenMap p m) ++ B)
      rw [keysOf_append, keysOf_append]
      have hmid : p ∈ keysOf ((p, "") :: flattenMap p m) := by simp [keysOf]
      exact List.mem_append_left _ (List.mem_append_right _ hmid)
    refine Rep.node ?_ ?_ ?_
    · show Store.dumpGet _ p = some ""
      unfold Store.dumpGet
      rw [if_neg (List.not_mem_nil p)]
      show lookupNode (A ++ ((p, "") :: flattenMap p m) ++ B) p = some ""
      rw [List.append_assoc, lookup_append_of_not_mem _ hpA]
      show lookupNode ((p, "") :: (flattenMap p m ++ B)) p = some ""
      rw [lookupNode_cons, if_pos rfl]
    · show Store.getChildrenE _ p = .ok (m.map Prod.fst)
      unfold Store.getChildrenE
      rw [if_neg (List.not_mem_nil p)]
      rw [if_pos hex]
      have hseg : Store.childSegs ⟨A ++ ((p, "") :: flattenMap p m) ++ B, [], []⟩ p
          = m.map Prod.fst := by
        show childSegsL (A ++ ((p, "") :: flattenMap p m) ++ B) p = m.map Prod.fst
        rw [childSegsL_append, childSegsL_append]
        rw [childSegsL_nil_of_no_ext A p
          (fun q hm => hq q (List.mem_append_left _ hm))]
        rw [childSegsL_cons_miss "" _ (childOf_self_false p)]
        rw [childSegsL_flattenMap m p hentries]
        rw [childSegsL_nil_of_no_ext B p
          (fun q hm => hq q (List.mem_append_right _ hm))]
        simp
      rw [hseg]
    · -- each entry's subtree
      intro k w hm
      obtain ⟨m1, m2, hsplit⟩ := List.append_of_mem hm
      subst hsplit
      have hnodup : ((m1 ++ (k, w) :: m2).map Prod.fst).Nodup := keysOk_nodup _ hkeys
      rw [List.map_append, List.map_cons] at hnodup
      have hdisj := (List.nodup_append.1 hnodup).2.2
      have hkm2 : k ∉ m2.map Prod.fst := by
        have := (List.nodup_append.1 hnodup).2.1
        exact (List.nodup_cons.1 this).1
      have hkm1 : k ∉ m1.map Prod.fst := by
        intro hk
        exact hdisj hk (List.mem_cons_self _ _)
      have hsteq :
          (⟨A ++ ((p, "") :: flattenMap p (m1 ++ (k, w) :: m2)) ++ B, [], []⟩ : Store) =
          ⟨(A ++ (p, "") :: flattenMap p m1) ++ flattenV (p ++ [k]) w ++
            (flattenMap p m2 ++ B), [], []⟩ := by
        rw [flattenMap_append, flattenMap]
        simp [List.append_assoc]
      rw [hsteq]
      refine ih k w hm (wfEntries_mem _ k w hentries hm) (p ++ [k])
        (A ++ (p, "") :: flattenMap p m1) (flattenMap p m2 ++ B) ?_
      intro q hq0 hpre
      have hqlen : p.length + 1 ≤ q.length := by
        have := hpre.length_le
        simpa using this
      rcases List.mem_append.1 hq0 with hq0 | hq0
      · rw [keysOf_append] at hq0
        rcases List.mem_append.1 hq0 with hq0 | hq0
        · exact hq q (List.mem_append_left _ hq0) ((List.prefix_append p [k]).trans hpre)
        · rcases List.mem_cons.1
              (show q ∈ p :: keysOf (flattenMap p m1) from hq0) with hq0 | hq0
          · subst hq0
            omega
          · obtain ⟨k1, hk1, hpre1⟩ := flattenMap_keys_extend m1 p q hq0
            have : k = k1 := seg_eq_of_both_extend hpre hpre1
            subst this
            exact hkm1 hk1
      · rw [keysOf_append] at hq0
        rcases List.mem_append.1 hq0 with hq0 | hq0
        · obtain ⟨k2, hk2, hpre2⟩ := flattenMap_keys_extend m2 p q hq0
          have : k = k2 := seg_eq_of_both_extend hpre hpre2
          subst this
          exact hkm2 hk2
        · exact hq q (List.mem_append_right _ hq0) ((List.prefix_append p [k]).trans hpre)

/-! ### Export correctness over represented subtrees -/

theorem dvDepthMap_mem_le :
    ∀ (m : List (String × DV)) (k : String) (w : DV), (k, w) ∈ m →
      dvDepth w ≤ dvDepthMap m := by
  intro m
  induction m with
  | nil => intro k w hm; simp at hm
  | cons e rest ih =>
    obtain ⟨k0, w0⟩ := e
    intro k w hm
    rw [dvDepthMap]
    rcases List.mem_cons.1 hm with h | h
    · cases h
      exact le_max_left _ _
    · exact le_trans (ih k w h) (le_max_right _ _)

theorem updateEntry_fresh {acc : List (String × DV)} {k : String} (d : DV)
    (h : k ∉ keysStr acc) : updateEntry acc k d = acc ++ [(k, d)] := by
  unfold updateEntry
  rw [if_neg]
  intro hany
  obtain ⟨e, hmem, hk⟩ := List.any_eq_true.1 hany
  simp only [decide_eq_true_eq] at hk
  exact h (hk ▸ List.mem_map_of_mem Prod.fst hmem)

theorem dump_of_rep :
    ∀ (v : DV), wfV v = true → ∀ (st : Store) (p : Path), Rep st p v →
      ∀ fuel, dvDepth v ≤ fuel →
      dumpChildren st fuel p = .ok (some [(pathKeyP p, v)]) := by
  refine DV.myInd _ ?_ ?_ ?_
  · -- scalar leaf
    intro s _ st p hrep fuel hfuel
    cases hrep with
    | leaf hg hc =>
      rw [dvDepth] at hfuel
      cases fuel with
      | zero => omega
      | succ f =>
        simp [dumpChildren, hg, hc]
  · intro l _ hwf
    simp [wfV] at hwf
  · -- map node
    intro m ih hwf st p hrep fuel hfuel
    obtain ⟨hne, hkeys, hentries⟩ := (wfV_map_iff m).1 hwf
    cases hrep with
    | node hg hc hchild =>
      rw [dvDepth] at hfuel
      cases fuel with
      | zero => omega
      | succ f =>
        have hf : dvDepthMap m ≤ f := by omega
        have hfold : ∀ (m' : List (String × DV)) (acc : List (String × DV)),
            (∀ k w, (k, w) ∈ m' → (k, w) ∈ m) →
            keysOk (m'.map Prod.fst) = true →
            wfEntries m' = true →
            (∀ k, k ∈ m'.map Prod.fst → k ∉ keysStr acc) →
            dumpFold (fun q => dumpChildren st f q) p (m'.map Prod.fst) acc =
              .ok (acc ++ m') := by
          intro m'
          induction m' with
          | nil =>
            intro acc _ _ _ _
            rw [List.map_nil, dumpFold]
            simp
          | cons e rest ihm =>
            obtain ⟨k, w⟩ := e
            intro acc hsub hko hwe hfresh
            obtain ⟨hwfw, hwfrest⟩ := (wfEntries_cons k w rest).1 hwe
            obtain ⟨hsk, hknotin, hkorest⟩ := (keysOk_cons k (rest.map Prod.fst)).1 hko
            have hmem0 : (k, w) ∈ (k, w) :: rest := List.mem_cons_self _ _
            have hdw := ih k w (hsub k w hmem0) hwfw st (p ++ [k])
              (hchild k w (hsub k w hmem0)) f
              (le_trans (dvDepthMap_mem_le m k w (hsub k w hmem0)) hf)
            rw [pathKeyP_append p k (segOk_ne_empty hsk)] at hdw
            rw [List.map_cons, dumpFold]
            simp only [hdw]
            have hupd : updateAll acc [(k, w)] = acc ++ [(k, w)] := by
              unfold updateAll
              rw [List.foldl_cons, List.foldl_nil]
              exact updateEntry_fresh w (hfresh k (by simp))
            rw [hupd]
            rw [ihm (acc ++ [(k, w)])
              (fun k' w' hm => hsub k' w' (List.mem_cons_of_mem _ hm))
              hkorest hwfrest
              (fun k' hk' => by
                rw [keysStr, List.map_append]
                intro hmem
                rcases List.mem_append.1 hmem with hmem | hmem
                · exact hfresh k' (by simp [hk']) hmem
                · simp only [List.map_cons, List.map_nil, List.mem_singleton] at hmem
                  subst hmem
                  exact hknotin hk')]
            rw [List.append_assoc]
            rfl
        have hmain := hfold m [] (fun k w hm => hm) hkeys hentries
          (fun k _ => by simp [keysStr])
        simp only [dumpChildren, hg, hc]
        rw [if_neg (by simpa [List.isEmpty_iff, List.map_eq_nil_iff] using hne)]
        rw [hmain]
        simp

/-- Importing a well-formed document into a fresh store and dumping from
the root reconstructs exactly the document, under the root key "/". -/
theorem roundTrip (doc : List (String × DV)) (fuel : Nat)
    (hwf : wfDoc doc = true) (hfuel : dvDepth (.map doc) ≤ fuel) :
    dumpChildren (loadDoc Store.initial doc defaultOpts).1 fuel [] =
      .ok (some [("/", .map doc)]) := by
  rw [loadDoc_initial doc hwf]
  have hsteq : (⟨([], "") :: flattenMap [] doc, [], []⟩ : Store) =
      ⟨[] ++ flattenV [] (.map doc) ++ [], [], []⟩ := by
    rw [flattenV]
    simp
  rw [hsteq]
  have hrep := repOfFlatten (.map doc) hwf [] [] []
    (fun q hq => by simp [keysOf] at hq)
  exact dump_of_rep (.map doc) hwf _ [] hrep fuel hfuel

/-! ### Upsert and write-sequence basics (for idempotence) -/

theorem applyWrites_append (st : Store) (W1 W2 : List (Path × String)) :
    applyWrites st (W1 ++ W2) = applyWrites (applyWrites st W1) W2 := by
  unfold applyWrites
  rw [List.foldl_append]

theorem upsert_getDenied (st : Store) (w : Path × String) :
    (upsert st w).getDenied = st.getDenied := by
  unfold upsert
  by_cases h : st.existsP w.1 <;> simp [h, Store.setValue]

theorem upsert_childrenDenied (st : Store) (w : Path × String) :
    (upsert st w).childrenDenied = st.childrenDenied := by
  unfold upsert
  by_cases h : st.existsP w.1 <;> simp [h, Store.setValue]

theorem mem_keys_upsert_self (st : Store) (w : Path × String) :
    w.1 ∈ keysOf (upsert st w).nodes := by
  unfold upsert
  by_cases h : st.existsP w.1
  · rw [if_pos h, setValue_def]
    show w.1 ∈ keysOf (svL st.nodes w.1 w.2)
    rw [keysOf_svL]
    exact (existsP_iff_mem st w.1).1 h
  · rw [if_neg h]
    show w.1 ∈ keysOf (st.nodes ++ missingAncestors st.nodes w.1 ++ [w])
    rw [keysOf_append]
    exact List.mem_append_right _ (by simp [keysOf])

theorem keys_monotone_upsert {st : Store} {q : Path} (w : Path × String)
    (h : q ∈ keysOf st.nodes) : q ∈ keysOf (upsert st w).nodes := by
  unfold upsert
  by_cases hx : st.existsP w.1
  · rw [if_pos hx, setValue_def]
    show q ∈ keysOf (svL st.nodes w.1 w.2)
    rw [keysOf_svL]
    exact h
  · rw [if_neg hx]
    show q ∈ keysOf (st.nodes ++ missingAncestors st.nodes w.1 ++ [w])
    rw [keysOf_append]
    exact List.mem_append_left _ (by rw [keysOf_append]; exact List.mem_append_left _ h)

theorem keys_monotone_applyWrites {st : Store} {q : Path}
    (W : List (Path × String)) (h : q ∈ keysOf st.nodes) :
    q ∈ keysOf (applyWrites st W).nodes := by
  induction W generalizing st with
  | nil => exact h
  | cons w W' ih =>
    show q ∈ keysOf (applyWrites (upsert st w) W').nodes
    exact ih (keys_monotone_upsert w h)

theorem written_keys_present {q : Path} {u : String} :
    ∀ (W : List (Path × String)) (st : Store), (q, u) ∈ W →
      q ∈ keysOf (applyWrites st W).nodes := by
  intro W
  induction W with
  | nil => intro st h; simp at h
  | cons w W' ih =>
    intro st h
    rcases List.mem_cons.1 h with h | h
    · subst h
      exact keys_monotone_applyWrites W' (mem_keys_upsert_self st (q, u))
    · exact ih (upsert st w) h

theorem properAncestors_nodup (p : Path) : (properAncestors p).Nodup := by
  unfold properAncestors
  refine List.Nodup.map_on ?_ (List.nodup_range p.length)
  intro i hi j hj hij
  simp only [List.mem_range] at hi hj
  have h1 : (p.take i).length = i := by simp only [List.length_take]; omega
  have h2 : (p.take j).length = j := by simp only [List.length_take]; omega
  rw [← h1, ← h2, hij]

theorem not_mem_of_missing {nodes : List (Path × String)} {q : Path}
    (h : q ∈ keysOf (missingAncestors nodes q')) : q ∉ keysOf nodes := by
  rw [keysOf_missingAncestors] at h
  have := (List.mem_filter.1 h).2
  simp only [decide_eq_true_eq] at this
  exact fun hm => absurd ((lookup_eq_none_iff nodes q).1 this) (by simp [hm])

theorem nodupKeys_upsert {st : Store} (w : Path × String)
    (h : st.NodupKeys) : (upsert st w).NodupKeys := by
  unfold upsert
  by_cases hx : st.existsP w.1
  · rw [if_pos hx]
    show ((keysOf (svL st.nodes w.1 w.2))).Nodup
    rw [keysOf_svL]
    exact h
  · rw [if_neg hx]
    show (keysOf (st.nodes ++ missingAncestors st.nodes w.1 ++ [w])).Nodup
    rw [keysOf_append, keysOf_append]
    rw [List.append_assoc]
    rw [List.nodup_append]
    refine ⟨h, ?_, ?_⟩
    · -- new block: missing ancestors ++ [w.1]
      rw [List.nodup_append]
      refine ⟨?_, by simp [keysOf], ?_⟩
      · rw [keysOf_missingAncestors]
        exact (properAncestors_nodup w.1).filter _
      · intro a ha hb
        simp only [keysOf, List.map_cons, List.map_nil, List.mem_singleton] at hb
        subst hb
        rw [keysOf_missingAncestors] at ha
        exact absurd rfl (Nat.ne_of_lt (mem_properAncestors (List.mem_filter.1 ha).1).2)
    · -- old keys disjoint from new
      intro a ha hb
      rcases List.mem_append.1 hb with hb | hb
      · exact absurd ha (not_mem_of_missing hb)
      · simp only [keysOf, List.map_cons, List.map_nil, List.mem_singleton] at hb
        rw [hb] at ha
        exact absurd ((existsP_iff_mem st w.1).2 ha) (by simp [hx])

theorem nodupKeys_applyWrites {st : Store} (W : List (Path × String))
    (h : st.NodupKeys) : (applyWrites st W).NodupKeys := by
  induction W generalizing st with
  | nil => exact h
  | cons w W' ih => exact ih (nodupKeys_upsert w h)

theorem ext_nodes : ∀ (A B : List (Path × String)),
    keysOf A = keysOf B → (keysOf A).Nodup →
    (∀ q, lookupNode A q = lookupNode B q) → A = B := by
  intro A
  induction A with
  | nil =>
    intro B hk _ _
    cases B with
    | nil => rfl
    | cons e rest => simp [keysOf] at hk
  | cons e rest ih =>
    intro B hk hnd hl
    obtain ⟨q, v⟩ := e
    cases B with
    | nil => simp [keysOf] at hk
    | cons e2 rest2 =>
      obtain ⟨q2, v2⟩ := e2
      simp only [keysOf, List.map_cons, List.cons.injEq] at hk
      obtain ⟨hq, hrest⟩ := hk
      subst hq
      have hv : v = v2 := by
        have := hl q
        rw [lookupNode_cons, lookupNode_cons, if_pos rfl, if_pos rfl] at this
        exact Option.some.injEq _ _ ▸ this
      subst hv
      have hndr : (keysOf rest).Nodup := (List.nodup_cons.1 (by simpa [keysOf] using hnd)).2
      have hqnot : q ∉ keysOf rest := (List.nodup_cons.1 (by simpa [keysOf] using hnd)).1
      congr 1
      refine ih rest2 hrest hndr ?_
      intro r
      by_cases hr : r = q
      · have hqnot2 : q ∉ keysOf rest2 := by
          show q ∉ List.map Prod.fst rest2
          rw [← hrest]
          exact hqnot
        rw [hr]
        rw [(lookup_eq_none_iff rest q).2 hqnot,
            (lookup_eq_none_iff rest2 q).2 hqnot2]
      · have := hl r
        rw [lookupNode_cons, lookupNode_cons, if_neg (Ne.symm hr), if_neg (Ne.symm hr)] at this
        exact this

theorem store_ext {σ1 σ2 : Store} (hnd : σ1.NodupKeys)
    (hk : keysOf σ1.nodes = keysOf σ2.nodes)
    (hl : ∀ q, σ1.get? q = σ2.get? q)
    (hd : σ1.getDenied = σ2.getDenied)
    (hc : σ1.childrenDenied = σ2.childrenDenied) : σ1 = σ2 := by
  obtain ⟨n1, d1, c1⟩ := σ1
  obtain ⟨n2, d2, c2⟩ := σ2
  simp only at hk hl hd hc
  subst hd hc
  congr 1
  exact ext_nodes n1 n2 hk (by simpa using hnd) hl

/-! ### The importer as a write sequence -/

theorem createChildren_writes :
    ∀ (v : DV) (o : Opts), o.makepath = true → ∀ (p : Path) (st : Store),
      createChildren st p v o = (applyWrites st (writesV p v), none) := by
  refine DV.myInd _ ?_ ?_ ?_
  · intro s o hmk p st
    by_cases hs : s = ""
    · subst hs
      obtain ⟨h1s, h1e⟩ := @createChild_upsert st p "" o hmk
      obtain ⟨h2s, h2e⟩ :=
        @createChild_upsert (createChild st p "" o).1 p "" o hmk
      rw [createChildren, if_pos rfl]
      simp only [h1e]
      rw [writesV, if_pos rfl]
      show ((createChild (createChild st p "" o).1 p "" o).1,
            (createChild (createChild st p "" o).1 p "" o).2.2) = _
      rw [h2e, h2s, h1s]
      rfl
    · obtain ⟨h1s, h1e⟩ := @createChild_upsert st p s o hmk
      rw [createChildren, if_neg hs, writesV, if_neg hs]
      show ((createChild st p s o).1, (createChild st p s o).2.2) = _
      rw [h1s, h1e]
      rfl
  · intro l ih o hmk p st
    by_cases hl : l.isEmpty = true
    · have : l = [] := List.isEmpty_iff.1 hl
      subst this
      obtain ⟨h1s, h1e⟩ := @createChild_upsert st p "" o hmk
      show ((createChild st p "" o).1, (createChild st p "" o).2.2) =
        (applyWrites st [(p, "")], none)
      rw [h1s, h1e]
      rfl
    · rw [createChildren, if_neg hl, writesV, if_neg hl]
      have inner : ∀ (l' : List DV) (st' : Store), (∀ d, d ∈ l' → d ∈ l) →
          createChildrenList st' p l' o = (applyWrites st' (writesList p l'), none) := by
        intro l'
        induction l' with
        | nil =>
          intro st' _
          rw [createChildrenList, writesList]
          rfl
        | cons d ds ihl =>
          intro st' hsub
          rw [createChildrenList]
          rw [ih d (hsub d (List.mem_cons_self _ _)) o hmk p st']
          show createChildrenList (applyWrites st' (writesV p d)) p ds o = _
          rw [ihl (applyWrites st' (writesV p d))
            (fun d' hd => hsub d' (List.mem_cons_of_mem _ hd))]
          rw [writesList, applyWrites_append]
      exact inner l st (fun d hd => hd)
  · intro m ih o hmk p st
    by_cases hm : m.isEmpty = true
    · have : m = [] := List.isEmpty_iff.1 hm
      subst this
      obtain ⟨h1s, h1e⟩ := @createChild_upsert st p "" o hmk
      show ((createChild st p "" o).1, (createChild st p "" o).2.2) =
        (applyWrites st [(p, "")], none)
      rw [h1s, h1e]
      rfl
    · rw [createChildren, if_neg hm, writesV, if_neg hm]
      have inner : ∀ (m' : List (String × DV)) (st' : Store),
          (∀ k w, (k, w) ∈ m' → (k, w) ∈ m) →
          createChildrenMap st' p m' o = (applyWrites st' (writesMap p m'), none) := by
        intro m'
        induction m' with
        | nil =>
          intro st' _
          rw [createChildrenMap, writesMap]
          rfl
        | cons e rest ihm =>
          obtain ⟨k, w⟩ := e
          intro st' hsub
          rw [createChildrenMap]
          rw [ih k w (hsub k w (List.mem_cons_self _ _)) o hmk (p ++ [k]) st']
          show createChildrenMap (applyWrites st' (writesV (p ++ [k]) w)) p rest o = _
          rw [ihm (applyWrites st' (writesV (p ++ [k]) w))
            (fun k' w' hd => hsub k' w' (List.mem_cons_of_mem _ hd))]
          rw [writesMap, applyWrites_append]
      exact inner m st (fun k w hd => hd)

theorem createChildrenMap_writes (o : Opts) (hmk : o.makepath = true) :
    ∀ (m : List (String × DV)) (p : Path) (st : Store),
      createChildrenMap st p m o = (applyWrites st (writesMap p m), none) := by
  intro m
  induction m with
  | nil =>
    intro p st
    rw [createChildrenMap, writesMap]
    rfl
  | cons e rest ih =>
    obtain ⟨k, w⟩ := e
    intro p st
    rw [createChildrenMap, createChildren_writes w o hmk (p ++ [k]) st]
    show createChildrenMap (applyWrites st (writesV (p ++ [k]) w)) p rest o = _
    rw [ih p (applyWrites st (writesV (p ++ [k]) w))]
    rw [writesMap, applyWrites_append]

theorem loadDoc_writes (doc : List (String × DV)) (o : Opts)
    (hmk : o.makepath = true) (st : Store) :
    loadDoc st doc o = (applyWrites st (writesMap [] doc), none) := by
  rw [loadDoc_eq_createChildrenMap, createChildrenMap_writes o hmk doc [] st]

/-! ### Replaying a write sequence is the identity on its own result -/

/-- Store `σ2` agrees with `σ1` everywhere except possibly at the value of `p`. -/
def AgreeX (p : Path) (σ1 σ2 : Store) : Prop :=
  keysOf σ1.nodes = keysOf σ2.nodes ∧
  (∀ q, q ≠ p → σ1.get? q = σ2.get? q) ∧
  σ1.getDenied = σ2.getDenied ∧ σ1.childrenDenied = σ2.childrenDenied

theorem missingAncestors_keys_congr {A B : List (Path × String)}
    (h : keysOf A = keysOf B) (q : Path) :
    missingAncestors A q = missingAncestors B q := by
  unfold missingAncestors
  congr 1
  apply List.filter_congr
  intro r _
  by_cases hr : lookupNode A r = none
  · have : lookupNode B r = none := by
      rw [lookup_eq_none_iff] at hr ⊢
      rw [← h]
      exact hr
    simp [hr, this]
  · have hrB : ¬ lookupNode B r = none := by
      rw [lookup_eq_none_iff] at hr ⊢
      rw [← h]
      exact hr
    simp [hr, hrB]

theorem get?_setValue_self {σ : Store} {a : Path} (v : String)
    (h : a ∈ keysOf σ.nodes) : (σ.setValue a v).get? a = some v := by
  rw [setValue_def]
  exact lookup_svL_self v h

theorem get?_setValue_ne {σ : Store} {a q : Path} (v : String)
    (h : a ≠ q) : (σ.setValue a v).get? q = σ.get? q := by
  rw [setValue_def]
  exact lookup_svL_ne σ.nodes v h

theorem agree_upsert {p : Path} {σ1 σ2 : Store} (w : Path × String)
    (h : AgreeX p σ1 σ2) : AgreeX p (upsert σ1 w) (upsert σ2 w) := by
  obtain ⟨hk, hv, hd, hc⟩ := h
  by_cases hx : σ1.existsP w.1
  · have hx2 : σ2.existsP w.1 = true := by
      rw [existsP_iff_mem] at hx ⊢
      rw [← hk]
      exact hx
    unfold upsert
    rw [if_pos hx, if_pos hx2]
    refine ⟨?_, ?_, ?_, ?_⟩
    · rw [setValue_def, setValue_def]
      show keysOf (svL σ1.nodes w.1 w.2) = keysOf (svL σ2.nodes w.1 w.2)
      rw [keysOf_svL, keysOf_svL]
      exact hk
    · intro q hq
      by_cases hwq : w.1 = q
      · subst hwq
        rw [get?_setValue_self w.2 ((existsP_iff_mem σ1 w.1).1 hx),
            get?_setValue_self w.2 ((existsP_iff_mem σ2 w.1).1 hx2)]
      · rw [get?_setValue_ne w.2 hwq, get?_setValue_ne w.2 hwq]
        exact hv q hq
    · simpa [Store.setValue] using hd
    · simpa [Store.setValue] using hc
  · have hx2 : ¬ σ2.existsP w.1 = true := by
      rw [existsP_iff_mem] at hx ⊢
      rw [← hk]
      exact hx
    unfold upsert
    rw [if_neg hx, if_neg hx2]
    have hM : missingAncestors σ1.nodes w.1 = missingAncestors σ2.nodes w.1 :=
      missingAncestors_keys_congr hk w.1
    refine ⟨?_, ?_, by simpa using hd, by simpa using hc⟩
    · show keysOf (σ1.nodes ++ missingAncestors σ1.nodes w.1 ++ [w]) =
        keysOf (σ2.nodes ++ missingAncestors σ2.nodes w.1 ++ [w])
      rw [keysOf_append, keysOf_append, keysOf_append, keysOf_append, hk, hM]
    · intro q hq
      show lookupNode (σ1.nodes ++ missingAncestors σ1.nodes w.1 ++ [w]) q =
        lookupNode (σ2.nodes ++ missingAncestors σ2.nodes w.1 ++ [w]) q
      rw [List.append_assoc, List.append_assoc, hM]
      by_cases hmem : q ∈ keysOf σ1.nodes
      · rw [lookup_append_left _ hmem, lookup_append_left _ (hk ▸ hmem)]
        exact hv q hq
      · rw [lookup_append_of_not_mem _ hmem,
            lookup_append_of_not_mem _ (fun hm => hmem (hk ▸ hm))]

theorem agree_applyWrites {p : Path} {σ1 σ2 : Store}
    (W : List (Path × String)) (h : AgreeX p σ1 σ2) :
    AgreeX p (applyWrites σ1 W) (applyWrites σ2 W) := by
  induction W generalizing σ1 σ2 with
  | nil => exact h
  | cons w W' ih =>
    show AgreeX p (applyWrites (upsert σ1 w) W') (applyWrites (upsert σ2 w) W')
    exact ih (agree_upsert w h)

theorem applyWrites_getDenied (st : Store) (W : List (Path × String)) :
    (applyWrites st W).getDenied = st.getDenied := by
  induction W generalizing st with
  | nil => rfl
  | cons w W' ih =>
    show (applyWrites (upsert st w) W').getDenied = _
    rw [ih (upsert st w), upsert_getDenied]

theorem applyWrites_childrenDenied (st : Store) (W : List (Path × String)) :
    (applyWrites st W).childrenDenied = st.childrenDenied := by
  induction W generalizing st with
  | nil => rfl
  | cons w W' ih =>
    show (applyWrites (upsert st w) W').childrenDenied = _
    rw [ih (upsert st w), upsert_childrenDenied]

theorem applyWrites_extend :
    ∀ (W : List (Path × String)) (σ : Store) (C : List (Path × String)),
      (∀ w, w ∈ W → w.1 ∈ keysOf σ.nodes) →
      (∀ c, c ∈ keysOf C → c ∉ keysOf σ.nodes) →
      applyWrites { σ with nodes := σ.nodes ++ C } W =
        { applyWrites σ W with nodes := (applyWrites σ W).nodes ++ C } := by
  intro W
  induction W with
  | nil => intro σ C _ _; rfl
  | cons w W' ih =>
    intro σ C hW hC
    have hw1 : w.1 ∈ keysOf σ.nodes := hW w (List.mem_cons_self _ _)
    have hx1 : σ.existsP w.1 = true := (existsP_iff_mem σ w.1).2 hw1
    have hx2 : Store.existsP { σ with nodes := σ.nodes ++ C } w.1 = true := by
      rw [existsP_iff_mem]
      show w.1 ∈ keysOf (σ.nodes ++ C)
      rw [keysOf_append]
      exact List.mem_append_left _ hw1
    show applyWrites (upsert { σ with nodes := σ.nodes ++ C } w) W' = _
    have hup : upsert { σ with nodes := σ.nodes ++ C } w =
        { σ.setValue w.1 w.2 with nodes := (σ.setValue w.1 w.2).nodes ++ C } := by
      unfold upsert
      rw [if_pos hx2]
      rw [setValue_def, setValue_def]
      show Store.setValue { σ with nodes := σ.nodes ++ C } w.1 w.2 = _
      rw [setValue_def]
      show ({ σ with nodes := svL (σ.nodes ++ C) w.1 w.2 } : Store) = _
      rw [svL_append]
      rw [svL_not_mem w.2 (fun hm => hC w.1 hm hw1)]
    rw [hup]
    have hW' : ∀ w', w' ∈ W' → w'.1 ∈ keysOf (σ.setValue w.1 w.2).nodes := by
      intro w' hw'
      rw [setValue_def]
      show w'.1 ∈ keysOf (svL σ.nodes w.1 w.2)
      rw [keysOf_svL]
      exact hW w' (List.mem_cons_of_mem _ hw')
    have hC' : ∀ c, c ∈ keysOf C → c ∉ keysOf (σ.setValue w.1 w.2).nodes := by
      intro c hc
      rw [setValue_def]
      show c ∉ keysOf (svL σ.nodes w.1 w.2)
      rw [keysOf_svL]
      exact hC c hc
    rw [ih (σ.setValue w.1 w.2) C hW' hC']
    have : applyWrites σ (w :: W') = applyWrites (σ.setValue w.1 w.2) W' := by
      show applyWrites (upsert σ w) W' = _
      unfold upsert
      rw [if_pos hx1]
    rw [this]

theorem nodupKeys_setValue {σ : Store} (a : Path) (v : String)
    (h : σ.NodupKeys) : (σ.setValue a v).NodupKeys := by
  rw [setValue_def]
  show (keysOf (svL σ.nodes a v)).Nodup
  rw [keysOf_svL]
  exact h

theorem setValue_self_eq {σ : Store} {p : Path} {v : String}
    (hnd : σ.NodupKeys) (hv : σ.get? p = some v) : σ.setValue p v = σ := by
  have hmem : p ∈ keysOf σ.nodes := by
    rw [← lookup_isSome_iff]
    simp [Store.get?] at hv ⊢
    simp [hv]
  refine store_ext (nodupKeys_setValue p v hnd) ?_ ?_ ?_ ?_
  · rw [setValue_def]
    show keysOf (svL σ.nodes p v) = keysOf σ.nodes
    rw [keysOf_svL]
  · intro q
    by_cases hq : p = q
    · subst hq
      rw [get?_setValue_self v hmem, hv]
    · rw [get?_setValue_ne v hq]
  · rfl
  · rfl

theorem applyWrites_idem :
    ∀ (W : List (Path × String)) (st : Store), st.NodupKeys →
      applyWrites (applyWrites st W) W = applyWrites st W := by
  intro W
  induction W using List.reverseRecOn with
  | nil => intro st _; rfl
  | append_singleton W' w ihW =>
    intro st hnd
    obtain ⟨p, v⟩ := w
    have hndS' : (applyWrites st W').NodupKeys := nodupKeys_applyWrites W' hnd
    have hIH : applyWrites (applyWrites st W') W' = applyWrites st W' := ihW st hnd
    rw [applyWrites_append]
    rw [applyWrites_append]
    show upsert (applyWrites (upsert (applyWrites st W') (p, v)) W') (p, v) =
      upsert (applyWrites st W') (p, v)
    set S' := applyWrites st W' with hS'
    by_cases hx : S'.existsP p
    · -- existing node: the replay only rewrites values
      have hS1 : upsert S' (p, v) = S'.setValue p v := by
        unfold upsert
        rw [if_pos hx]
      rw [hS1]
      have hagree : AgreeX p S' (S'.setValue p v) := by
        refine ⟨?_, ?_, rfl, rfl⟩
        · rw [setValue_def]
          show keysOf S'.nodes = keysOf (svL S'.nodes p v)
          rw [keysOf_svL]
        · intro q hq
          rw [get?_setValue_ne v (Ne.symm hq)]
      have happ := agree_applyWrites W' hagree
      rw [hIH] at happ
      obtain ⟨hk2, hv2, hd2, hc2⟩ := happ
      have hx2 : (applyWrites (S'.setValue p v) W').existsP p = true := by
        rw [existsP_iff_mem, ← hk2]
        exact (existsP_iff_mem S' p).1 hx
      have hgoal : upsert (applyWrites (S'.setValue p v) W') (p, v) =
          (applyWrites (S'.setValue p v) W').setValue p v := by
        unfold upsert
        rw [if_pos hx2]
      rw [hgoal]
      -- both sides set p to v and agree elsewhere
      refine store_ext ?_ ?_ ?_ ?_ ?_
      · exact nodupKeys_setValue p v
          (nodupKeys_applyWrites W' (nodupKeys_setValue p v hndS'))
      · rw [setValue_def, setValue_def]
        show keysOf (svL (applyWrites (S'.setValue p v) W').nodes p v) =
          keysOf (svL S'.nodes p v)
        rw [keysOf_svL, keysOf_svL, ← hk2]
      · intro q
        by_cases hq : p = q
        · subst hq
          rw [get?_setValue_self v (by rw [← hk2]; exact (existsP_iff_mem S' p).1 hx),
              get?_setValue_self v ((existsP_iff_mem S' p).1 hx)]
        · rw [get?_setValue_ne v hq, get?_setValue_ne v hq]
          exact (hv2 q (Ne.symm hq)).symm
      · simp [Store.setValue, applyWrites_getDenied]
      · simp [Store.setValue, applyWrites_childrenDenied]
    · -- new node: the replay never touches the appended chain
      have hC : upsert S' (p, v) =
          { S' with nodes := S'.nodes ++ (missingAncestors S'.nodes p ++ [(p, v)]) } := by
        unfold upsert
        rw [if_neg hx]
        rw [← List.append_assoc]
      rw [hC]
      have hWkeys : ∀ w', w' ∈ W' → w'.1 ∈ keysOf S'.nodes := by
        intro w' hw'
        obtain ⟨q', u'⟩ := w'
        exact written_keys_present W' st hw'
      have hCdisj : ∀ c, c ∈ keysOf (missingAncestors S'.nodes p ++ [(p, v)]) →
          c ∉ keysOf S'.nodes := by
        intro c hc
        rw [keysOf_append] at hc
        rcases List.mem_append.1 hc with hc | hc
        · exact not_mem_of_missing hc
        · simp only [keysOf, List.map_cons, List.map_nil, List.mem_singleton] at hc
          subst hc
          exact fun hm => absurd ((existsP_iff_mem S' c).2 hm) (by simpa using hx)
      rw [applyWrites_extend W' S' _ hWkeys hCdisj]
      rw [hIH]
      -- final upsert on a store whose value at p is already v
      have hx2 : Store.existsP
          { S' with nodes := S'.nodes ++ (missingAncestors S'.nodes p ++ [(p, v)]) } p
          = true := by
        rw [existsP_iff_mem]
        show p ∈ keysOf (S'.nodes ++ (missingAncestors S'.nodes p ++ [(p, v)]))
        rw [keysOf_append, keysOf_append]
        exact List.mem_append_right _ (List.mem_append_right _ (by simp [keysOf]))
      have hndS1 : Store.NodupKeys
          { S' with nodes := S'.nodes ++ (missingAncestors S'.nodes p ++ [(p, v)]) } := by
        have := nodupKeys_upsert (p, v) hndS'
        rw [hC] at this
        exact this
      have hval : Store.get?
          { S' with nodes := S'.nodes ++ (missingAncestors S'.nodes p ++ [(p, v)]) } p
          = some v := by
        show lookupNode (S'.nodes ++ (missingAncestors S'.nodes p ++ [(p, v)])) p = some v
        rw [lookup_append_of_not_mem _ (not_mem_of_existsP_false (by simpa using hx))]
        rw [lookup_append_of_not_mem _ (not_mem_keys_missingAncestors S'.nodes p)]
        rw [lookupNode_cons, if_pos rfl]
      unfold upsert
      rw [if_pos hx2]
      exact setValue_self_eq hndS1 hval

/-- Importing a document twice (with the importer's defaults) leaves the
same store as importing it once: the replayed walk only re-issues the same
upserts, which update every already-created node to its existing value. -/
theorem loadDoc_idem (doc : List (String × DV)) (st : Store) (hnd : st.NodupKeys) :
    loadDoc (loadDoc st doc defaultOpts).1 doc defaultOpts = loadDoc st doc defaultOpts := by
  rw [loadDoc_writes doc defaultOpts rfl st]
  show loadDoc (applyWrites st (writesMap [] doc)) doc defaultOpts = _
  rw [loadDoc_writes doc defaultOpts rfl (applyWrites st (writesMap [] doc))]
  rw [applyWrites_idem (writesMap [] doc) st hnd]

/-! ### Shape and merge behaviour of the export walk -/

theorem dump_shape : ∀ (st : Store) (fuel : Nat) (p : Path) (r : List (String × DV)),
    dumpChildren st fuel p = .ok (some r) → ∃ d, r = [(pathKeyP p, d)] := by
  intro st fuel p r h
  cases fuel with
  | zero =>
    rw [dumpChildren] at h
    simp at h
  | succ f =>
    rw [dumpChildren] at h
    cases hg : st.dumpGet p with
    | none =>
      simp only [hg] at h
      simp at h
    | some curVal =>
      simp only [hg] at h
      cases hc : st.getChildrenE p with
      | error e =>
        simp only [hc] at h
        simp at h
      | ok children =>
        simp only [hc] at h
        by_cases hce : children.isEmpty = true
        · rw [if_pos hce] at h
          simp only [Except.ok.injEq, Option.some.injEq] at h
          exact ⟨.str curVal, h.symm⟩
        · rw [if_neg hce] at h
          cases hf : dumpFold (fun q => dumpChildren st f q) p children [] with
          | error e =>
            simp only [hf] at h
            simp at h
          | ok cd =>
            simp only [hf] at h
            by_cases hcv : curVal = ""
            · rw [if_pos hcv] at h
              simp only [Except.ok.injEq, Option.some.injEq] at h
              exact ⟨.map cd, h.symm⟩
            · rw [if_neg hcv] at h
              simp only [Except.ok.injEq, Option.some.injEq] at h
              exact ⟨.list [.str curVal, .map cd], h.symm⟩

theorem dumpFold_merge (st : Store) (fuel : Nat) (p : Path) :
    ∀ (cs : List String) (acc r : List (String × DV)),
      dumpFold (fun q => dumpChildren st fuel q) p cs acc = .ok r →
      (∀ c, c ∈ cs → ¬ c = "") →
      cs.Nodup →
      (∀ c, c ∈ cs → c ∉ keysStr acc) →
      ∃ news, r = acc ++ news ∧
        news.map Prod.fst = cs.filter (fun c => accessibleB st fuel (p ++ [c])) := by
  intro cs
  induction cs with
  | nil =>
    intro acc r h _ _ _
    rw [dumpFold] at h
    simp only [Except.ok.injEq] at h
    exact ⟨[], by rw [← h]; simp, rfl⟩
  | cons c cs' ih =>
    intro acc r h hne hnd hfresh
    rw [dumpFold] at h
    cases hd : dumpChildren st fuel (p ++ [c]) with
    | error e =>
      simp only [hd] at h
      simp at h
    | ok res =>
      cases res with
      | none =>
        simp only [hd] at h
        have hacc : accessibleB st fuel (p ++ [c]) = false := by
          unfold accessibleB
          rw [hd]
        obtain ⟨news, hr, hkeys⟩ := ih acc r h
          (fun c' hc' => hne c' (List.mem_cons_of_mem _ hc'))
          (List.nodup_cons.1 hnd).2
          (fun c' hc' => hfresh c' (List.mem_cons_of_mem _ hc'))
        refine ⟨news, hr, ?_⟩
        rw [List.filter_cons_of_neg (by simp [hacc])]
        exact hkeys
      | some t =>
        simp only [hd] at h
        obtain ⟨d, ht⟩ := dump_shape st fuel (p ++ [c]) t hd
        subst ht
        rw [pathKeyP_append p c (hne c (List.mem_cons_self _ _))] at h hd
        have hupd : updateAll acc [(c, d)] = acc ++ [(c, d)] := by
          unfold updateAll
          rw [List.foldl_cons, List.foldl_nil]
          exact updateEntry_fresh d (hfresh c (List.mem_cons_self _ _))
        rw [hupd] at h
        obtain ⟨news', hr, hkeys'⟩ := ih (acc ++ [(c, d)]) r h
          (fun c' hc' => hne c' (List.mem_cons_of_mem _ hc'))
          (List.nodup_cons.1 hnd).2
          (fun c' hc' => by
            rw [keysStr, List.map_append]
            intro hmem
            rcases List.mem_append.1 hmem with hmem | hmem
            · exact hfresh c' (List.mem_cons_of_mem _ hc') hmem
            · simp only [List.map_cons, List.map_nil, List.mem_singleton] at hmem
              subst hmem
              exact (List.nodup_cons.1 hnd).1 hc')
        refine ⟨(c, d) :: news', by rw [hr]; simp, ?_⟩
        rw [List.filter_cons_of_pos (by simp [accessibleB, hd])]
        simp only [List.map_cons]
        rw [hkeys']

theorem dump_get_failure (st : Store) (fuel : Nat) (p : Path)
    (hg : st.dumpGet p = none) : dumpChildren st fuel p = .ok none := by
  cases fuel with
  | zero => rw [dumpChildren]
  | succ f =>
    rw [dumpChildren]
    simp [hg]

theorem dump_children_error (st : Store) (fuel : Nat) (p : Path) (v : String)
    (e : ZKErr) (hg : st.dumpGet p = some v) (hc : st.getChildrenE p = .error e) :
    dumpChildren st (fuel + 1) p = .error e := by
  rw [dumpChildren]
  simp [hg, hc]

theorem dump_with_children (st : Store) (fuel : Nat) (p : Path) (v : String)
    (cs : List String) (cd : List (String × DV))
    (hg : st.dumpGet p = some v)
    (hc : st.getChildrenE p = .ok cs) (hcs : cs ≠ [])
    (hf : dumpFold (fun q => dumpChildren st fuel q) p cs [] = .ok cd) :
    dumpChildren st (fuel + 1) p =
      .ok (some [(pathKeyP p,
        if v = "" then .map cd else .list [.str v, .map cd])]) := by
  rw [dumpChildren]
  simp only [hg, hc]
  rw [if_neg (by simpa [List.isEmpty_iff] using hcs)]
  simp only [hf]
  by_cases hv : v = ""
  · rw [if_pos hv, if_pos hv]
  · rw [if_neg hv, if_neg hv]

/-! ### The top-level export key (C7) -/

theorem filter_getLast_of_last (P : String → Bool) (dflt : String)
    (l : List String) (x : String) (hx : P x = true) :
    ((l ++ [x]).filter P).getLast?.getD dflt = x := by
  rw [List.filter_append]
  have hfx : List.filter P [x] = [x] := by
    rw [List.filter_cons, if_pos hx]
    rfl
  rw [hfx, List.getLast?_concat]
  rfl

theorem splitSlashAux_ne_nil : ∀ (cs acc : List Char), splitSlashAux cs acc ≠ [] := by
  intro cs
  induction cs with
  | nil =>
    intro acc h
    simp [splitSlashAux] at h
  | cons ch rest ih =>
    intro acc h
    rw [splitSlashAux] at h
    by_cases hc : ch = '/'
    · rw [if_pos hc] at h
      simp at h
    · rw [if_neg hc] at h
      exact ih _ h

theorem curKeyOf_cases (path : String) :
    ((pySplitSlash path).getLast?.getD "" = "" → curKeyOf path = "/") ∧
    (¬ (pySplitSlash path).getLast?.getD "" = "" →
      curKeyOf path = lastNonEmptySeg path) := by
  constructor
  · intro h
    show (if (pySplitSlash path).getLast?.getD "" = "" then "/"
          else (pySplitSlash path).getLast?.getD "") = "/"
    rw [if_pos h]
  · intro h
    have hne : pySplitSlash path ≠ [] := splitSlashAux_ne_nil _ _
    obtain ⟨l, x, hlx⟩ : ∃ l x, pySplitSlash path = l ++ [x] :=
      ⟨(pySplitSlash path).dropLast, (pySplitSlash path).getLast hne,
        (List.dropLast_append_getLast hne).symm⟩
    have hx : ¬ x = "" := by
      rw [hlx, List.getLast?_concat] at h
      simpa using h
    show (if (pySplitSlash path).getLast?.getD "" = "" then "/"
          else (pySplitSlash path).getLast?.getD "") = lastNonEmptySeg path
    rw [if_neg h]
    unfold lastNonEmptySeg
    rw [hlx, List.getLast?_concat]
    rw [filter_getLast_of_last _ "/" l x (by simp [hx])]
    rfl

/-! ### Remaining small facts for the claims -/

theorem writesList_flatMap (p : Path) :
    ∀ l : List DV, writesList p l = l.flatMap (fun d => writesV p d) := by
  intro l
  induction l with
  | nil => rfl
  | cons d ds ih =>
    rw [writesList, List.flatMap_cons, ih]

theorem writesList_append (p : Path) (l1 l2 : List DV) :
    writesList p (l1 ++ l2) = writesList p l1 ++ writesList p l2 := by
  induction l1 with
  | nil => rfl
  | cons d ds ih =>
    rw [List.cons_append, writesList, writesList, ih, List.append_assoc]

theorem get?_upsert_self (σ : Store) (w : Path × String) :
    (upsert σ w).get? w.1 = some w.2 := by
  unfold upsert
  by_cases hx : σ.existsP w.1
  · rw [if_pos hx]
    exact get?_setValue_self w.2 ((existsP_iff_mem σ w.1).1 hx)
  · rw [if_neg hx]
    show lookupNode (σ.nodes ++ missingAncestors σ.nodes w.1 ++ [w]) w.1 = some w.2
    rw [List.append_assoc]
    rw [lookup_append_of_not_mem _ (not_mem_of_existsP_false (by simpa using hx))]
    rw [lookup_append_of_not_mem _ (not_mem_keys_missingAncestors σ.nodes w.1)]
    show lookupNode [w] w.1 = some w.2
    obtain ⟨a, b⟩ := w
    rw [lookupNode_cons, if_pos rfl]

theorem createChildren_list_flatMap (st : Store) (p : Path) (l : List DV)
    (o : Opts) (hmk : o.makepath = true) (hl : l ≠ []) :
    createChildren st p (.list l) o =
      (applyWrites st (l.flatMap (fun d => writesV p d)), none) := by
  rw [createChildren_writes (.list l) o hmk p st]
  rw [writesV, if_neg (by simpa [List.isEmpty_iff] using hl), writesList_flatMap]

theorem applyWrites_str_get (σ : Store) (p : Path) (s : String) :
    (applyWrites σ (writesV p (.str s))).get? p = some s := by
  by_cases hs : s = ""
  · subst hs
    rw [writesV, if_pos rfl]
    exact get?_upsert_self _ (p, "")
  · rw [writesV, if_neg hs]
    exact get?_upsert_self _ (p, s)

theorem last_scalar_wins (st : Store) (p : Path) (l : List DV) (s : String) :
    (createChildren st p (.list (l ++ [.str s])) defaultOpts).1.get? p = some s := by
  rw [createChildren_writes (DV.list (l ++ [DV.str s])) defaultOpts rfl p st]
  show (applyWrites st (writesV p (DV.list (l ++ [DV.str s])))).get? p = some s
  rw [writesV, if_neg (by simp)]
  rw [writesList_append, applyWrites_append]
  rw [writesList, writesList, List.append_nil]
  exact applyWrites_str_get _ p s

/-! ### The claims -/

/-- C1: Round-trip. For every document whose nodes each hold either a
scalar or a non-empty map of children under valid distinct keys (no node
with both a value and children — `wfDoc`), exporting after importing the
document reconstructs a document equal to the original: the dump from the
root is literally the document again (under the root key "/"), so in
particular it is equal up to key ordering. -/
theorem c1_round_trip (doc : List (String × DV)) (fuel : Nat)
    (hwf : wfDoc doc = true) (hfuel : dvDepth (.map doc) ≤ fuel) :
    dumpChildren (loadDoc Store.initial doc defaultOpts).1 fuel [] =
      .ok (some [("/", DV.map doc)]) :=
  roundTrip doc fuel hwf hfuel

theorem c1_round_trip_witness :
    wfDoc [("a", DV.str "x"), ("b", DV.map [("c", DV.str "")])] = true ∧
    dumpChildren (loadDoc Store.initial
        [("a", DV.str "x"), ("b", DV.map [("c", DV.str "")])] defaultOpts).1 5 [] =
      .ok (some [("/", DV.map [("a", DV.str "x"), ("b", DV.map [("c", DV.str "")])])]) :=
  ⟨rfl, c1_round_trip [("a", DV.str "x"), ("b", DV.map [("c", DV.str "")])] 5 rfl
    (by decide)⟩

/-- C2: Mixed node round-trip. Importing `{"a": ["hello", {"b": "x"}]}`
leaves the store with Node("/a").value = "hello" and Node("/a/b").value =
"x"; for every node with a non-empty value and at least one child (whose
listing and child walks succeed), export produces the two-element list
`[Scalar(value), Map(children)]`; and exporting "/a" yields
`{"a": ["hello", {"b": "x"}]}`. -/
theorem c2_mixed_node (st : Store) (fuel : Nat) (p : Path) (v : String)
    (cs : List String) (cd : List (String × DV))
    (hg : st.dumpGet p = some v) (hv : ¬ v = "")
    (hc : st.getChildrenE p = .ok cs) (hcs : cs ≠ [])
    (hf : dumpFold (fun q => dumpChildren st fuel q) p cs [] = .ok cd) :
    dumpChildren st (fuel + 1) p =
      .ok (some [(pathKeyP p, .list [.str v, .map cd])]) ∧
    (loadDoc Store.initial
      [("a", DV.list [DV.str "hello", DV.map [("b", DV.str "x")]])] defaultOpts).1.get?
        ["a"] = some "hello" ∧
    (loadDoc Store.initial
      [("a", DV.list [DV.str "hello", DV.map [("b", DV.str "x")]])] defaultOpts).1.get?
        ["a", "b"] = some "x" ∧
    dumpChildren (loadDoc Store.initial
      [("a", DV.list [DV.str "hello", DV.map [("b", DV.str "x")]])] defaultOpts).1 3
        ["a"] =
      .ok (some [("a", DV.list [DV.str "hello", DV.map [("b", DV.str "x")]])]) := by
  refine ⟨?_, rfl, rfl, rfl⟩
  have h := dump_with_children st fuel p v cs cd hg hc hcs hf
  rw [if_neg hv] at h
  exact h

theorem c2_mixed_node_witness :
    Store.dumpGet (loadDoc Store.initial
      [("a", DV.list [DV.str "hello", DV.map [("b", DV.str "x")]])] defaultOpts).1
        ["a"] = some "hello" ∧
    dumpChildren (loadDoc Store.initial
      [("a", DV.list [DV.str "hello", DV.map [("b", DV.str "x")]])] defaultOpts).1 2
        ["a"] =
      .ok (some [(pathKeyP ["a"], .list [.str "hello", .map [("b", DV.str "x")]])]) :=
  ⟨rfl, (c2_mixed_node (loadDoc Store.initial
      [("a", DV.list [DV.str "hello", DV.map [("b", DV.str "x")]])] defaultOpts).1
    1 ["a"] "hello" ["b"] [("b", DV.str "x")] rfl (by decide) rfl (by decide) rfl).1⟩

/-- C3: List fan-in. For every list value the import issues, in order, one
batch of upserts per element at the same path (the write sequence is the
concatenation of the elements' writes at that path); when the last element
is a scalar, its value is the node's final value; in particular importing
`{"a": ["v1", "v2"]}` leaves Node("/a").value = "v2" with no children. -/
theorem c3_list_fan_in :
    (∀ (st : Store) (p : Path) (l : List DV) (o : Opts),
      o.makepath = true → l ≠ [] →
      createChildren st p (DV.list l) o =
        (applyWrites st (l.flatMap (fun d => writesV p d)), none)) ∧
    (∀ (st : Store) (p : Path) (l : List DV) (s : String),
      (createChildren st p (DV.list (l ++ [DV.str s])) defaultOpts).1.get? p
        = some s) ∧
    (loadDoc Store.initial [("a", DV.list [DV.str "v1", DV.str "v2"])] defaultOpts).1 =
      ⟨[([], ""), (["a"], "v2")], [], []⟩ ∧
    Store.childSegs (loadDoc Store.initial
      [("a", DV.list [DV.str "v1", DV.str "v2"])] defaultOpts).1 ["a"] = [] :=
  ⟨fun st p l o hmk hl => createChildren_list_flatMap st p l o hmk hl,
   fun st p l s => last_scalar_wins st p l s, rfl, rfl⟩

theorem c3_list_fan_in_witness :
    createChildren Store.initial ["a"] (DV.list [DV.str "q"]) defaultOpts =
      (applyWrites Store.initial
        ([DV.str "q"].flatMap (fun d => writesV ["a"] d)), none) ∧
    (createChildren Store.initial ["a"] (DV.list ([] ++ [DV.str "s"]))
      defaultOpts).1.get? ["a"] = some "s" :=
  ⟨c3_list_fan_in.1 Store.initial ["a"] [DV.str "q"] defaultOpts rfl
     (List.cons_ne_nil _ _),
   c3_list_fan_in.2.1 Store.initial ["a"] [] "s"⟩

/-- C4: Idempotence of import. For every document and every valid store
state (distinct node paths), importing the document twice with the
importer's defaults yields the same store state as importing it once: the
second import re-issues the same upserts, which only update existing
nodes' values and create no duplicate children. -/
theorem c4_idempotent (doc : List (String × DV)) (st : Store)
    (hnd : st.NodupKeys) :
    loadDoc (loadDoc st doc defaultOpts).1 doc defaultOpts =
      loadDoc st doc defaultOpts :=
  loadDoc_idem doc st hnd

theorem c4_idempotent_witness :
    Store.NodupKeys Store.initial ∧
    loadDoc (loadDoc Store.initial
        [("a", DV.list [DV.str "v1", DV.map [("b", DV.str "x")]])] defaultOpts).1
      [("a", DV.list [DV.str "v1", DV.map [("b", DV.str "x")]])] defaultOpts =
    loadDoc Store.initial
      [("a", DV.list [DV.str "v1", DV.map [("b", DV.str "x")]])] defaultOpts :=
  ⟨show (keysOf Store.initial.nodes).Nodup by decide,
   c4_idempotent [("a", DV.list [DV.str "v1", DV.map [("b", DV.str "x")]])]
     Store.initial (show (keysOf Store.initial.nodes).Nodup by decide)⟩

/-- C5: Denied or missing subtree. If reading the value of child `c` of `p`
fails (denied or missing), its subtree dumps as `None`; the parent's walk
still succeeds, its output map omits the key `c` entirely, and every
sibling whose subtree is accessible still appears in it; the export is not
aborted. -/
theorem c5_denied_subtree (st : Store) (fuel : Nat) (p : Path) (c : String)
    (v : String) (cs : List String) (cd : List (String × DV))
    (hcget : st.dumpGet (p ++ [c]) = none)
    (hg : st.dumpGet p = some v)
    (hc : st.getChildrenE p = .ok cs)
    (hmem : c ∈ cs)
    (hnd : cs.Nodup)
    (hne : ∀ c', c' ∈ cs → ¬ c' = "")
    (hf : dumpFold (fun q => dumpChildren st fuel q) p cs [] = .ok cd) :
    dumpChildren st fuel (p ++ [c]) = .ok none ∧
    dumpChildren st (fuel + 1) p =
      .ok (some [(pathKeyP p,
        if v = "" then .map cd else .list [.str v, .map cd])]) ∧
    c ∉ cd.map Prod.fst ∧
    (∀ c', c' ∈ cs → accessibleB st fuel (p ++ [c']) = true →
      c' ∈ cd.map Prod.fst) := by
  have hnil : dumpChildren st fuel (p ++ [c]) = .ok none :=
    dump_get_failure st fuel _ hcget
  have hcs : cs ≠ [] := fun h => by simp [h] at hmem
  obtain ⟨news, hr, hkeys⟩ := dumpFold_merge st fuel p cs [] cd hf hne hnd
    (fun c' _ => by simp [keysStr])
  refine ⟨hnil, dump_with_children st fuel p v cs cd hg hc hcs hf, ?_, ?_⟩
  · intro hcmem
    rw [hr] at hcmem
    simp only [List.nil_append] at hcmem
    rw [hkeys] at hcmem
    have := (List.mem_filter.1 hcmem).2
    rw [show accessibleB st fuel (p ++ [c]) = false from by
      unfold accessibleB; rw [hnil]] at this
    cases this
  · intro c' hc' hacc
    rw [hr]
    simp only [List.nil_append]
    rw [hkeys]
    exact List.mem_filter.2 ⟨hc', hacc⟩

theorem c5_denied_subtree_witness :
    Store.dumpGet ⟨[([], ""), (["a"], ""), (["a", "ok"], "y"),
        (["a", "secret"], "z")], [["a", "secret"]], []⟩ ["a", "secret"] = none ∧
    dumpChildren ⟨[([], ""), (["a"], ""), (["a", "ok"], "y"),
        (["a", "secret"], "z")], [["a", "secret"]], []⟩ 1 (["a"] ++ ["secret"]) =
      .ok none ∧
    dumpChildren ⟨[([], ""), (["a"], ""), (["a", "ok"], "y"),
        (["a", "secret"], "z")], [["a", "secret"]], []⟩ 2 ["a"] =
      .ok (some [(pathKeyP ["a"],
        if ("" : String) = "" then .map [("ok", DV.str "y")]
        else .list [.str "", .map [("ok", DV.str "y")]])]) ∧
    "secret" ∉ [("ok", DV.str "y")].map Prod.fst := by
  have h := c5_denied_subtree
    ⟨[([], ""), (["a"], ""), (["a", "ok"], "y"), (["a", "secret"], "z")],
      [["a", "secret"]], []⟩
    1 ["a"] "secret" "" ["ok", "secret"] [("ok", DV.str "y")]
    rfl rfl rfl (by decide) (by decide) (by decide) rfl
  exact ⟨rfl, h.1, h.2.1, h.2.2.1⟩

/-- C6: Upsert frame condition. `_create_child` issues exactly one call:
if the path does not exist, a `create` propagating the caller's acl,
ephemeral, sequence and make-intermediate-paths options (and, under
makepath, the node and its missing ancestors are created); if it exists,
an `update` issued unconditionally with the match-any version -1, which
overwrites only that node's value — the key set, every node's children
listing, the other nodes' values, and the access-control state are
unchanged. -/
theorem c6_upsert_frame (st : Store) (p : Path) (v : String) (o : Opts) :
    (st.existsP p = false →
      (createChild st p v o).2.1 =
        .createOp p v o.acl o.ephemeral o.sequence o.makepath ∧
      (o.makepath = true →
        createChild st p v o =
          ({ st with nodes := st.nodes ++ missingAncestors st.nodes p ++ [(p, v)] },
            .createOp p v o.acl o.ephemeral o.sequence o.makepath, none) ∧
        (createChild st p v o).1.existsP p = true)) ∧
    (st.existsP p = true →
      (createChild st p v o).2.1 = .updateOp p v (-1) ∧
      (createChild st p v o).2.2 = none ∧
      keysOf (createChild st p v o).1.nodes = keysOf st.nodes ∧
      (createChild st p v o).1.get? p = some v ∧
      (∀ q, q ≠ p → (createChild st p v o).1.get? q = st.get? q) ∧
      (∀ q, (createChild st p v o).1.childSegs q = st.childSegs q) ∧
      (createChild st p v o).1.getDenied = st.getDenied ∧
      (createChild st p v o).1.childrenDenied = st.childrenDenied) := by
  constructor
  · intro hex
    constructor
    · unfold createChild
      rw [if_pos (by simp [hex])]
      cases hcn : st.createNode p v o.makepath with
      | ok st' => simp only [hcn]
      | error e => simp only [hcn]
    · intro hmk
      have h := createChild_absent v o hex hmk
      refine ⟨h, ?_⟩
      rw [h]
      rw [existsP_iff_mem]
      show p ∈ keysOf (st.nodes ++ missingAncestors st.nodes p ++ [(p, v)])
      rw [keysOf_append]
      exact List.mem_append_right _ (by simp [keysOf])
  · intro hex
    rw [createChild_present v o hex]
    refine ⟨rfl, rfl, ?_, ?_, ?_, ?_, rfl, rfl⟩
    · rw [setValue_def]
      show keysOf (svL st.nodes p v) = keysOf st.nodes
      rw [keysOf_svL]
    · exact get?_setValue_self v ((existsP_iff_mem st p).1 hex)
    · intro q hq
      exact get?_setValue_ne v (Ne.symm hq)
    · intro q
      show childSegsL (svL st.nodes p v) q = childSegsL st.nodes q
      rw [childSegsL_eq_keys, childSegsL_eq_keys, keysOf_svL]

theorem c6_upsert_frame_witness :
    Store.existsP Store.initial ["a"] = false ∧
    (createChild Store.initial ["a"] "x" defaultOpts).2.1 =
      .createOp ["a"] "x" none false false true ∧
    Store.existsP Store.initial [] = true ∧
    (createChild Store.initial [] "y" defaultOpts).2.1 = .updateOp [] "y" (-1) :=
  ⟨rfl, ((c6_upsert_frame Store.initial ["a"] "x" defaultOpts).1 rfl).1, rfl,
    ((c6_upsert_frame Store.initial [] "y" defaultOpts).2 rfl).1⟩

/-- C7 counterexample: for root_path "/a/" — which has the non-empty
segment "a" — the code's key is the literal "/", not the last non-empty
segment, so the key is not always the last non-empty segment and "/" is
used on paths that do have segments. -/
theorem c7_top_key_counterexample :
    curKeyOf "/a/" = "/" ∧
    lastNonEmptySeg "/a/" = "a" ∧
    (pySplitSlash "/a/").filter (fun s => !(s = "")) = ["a"] ∧
    ¬ curKeyOf "/a/" = lastNonEmptySeg "/a/" :=
  ⟨rfl, rfl, rfl, by decide⟩

/-- C7 (amended): the key under which the exported subtree is placed is the
last slash-separated field of root_path, with the literal "/" substituted
exactly when that field is empty (root_path is empty or ends in a slash);
whenever the last field is non-empty the key coincides with the last
non-empty path segment. -/
theorem c7_top_key_amended (path : String) :
    ((pySplitSlash path).getLast?.getD "" = "" → curKeyOf path = "/") ∧
    (¬ (pySplitSlash path).getLast?.getD "" = "" →
      curKeyOf path = lastNonEmptySeg path) :=
  curKeyOf_cases path

theorem c7_top_key_amended_witness :
    ¬ (pySplitSlash "/a").getLast?.getD "" = "" ∧
    curKeyOf "/a" = lastNonEmptySeg "/a" ∧
    (pySplitSlash "b/").getLast?.getD "" = "" ∧
    curKeyOf "b/" = "/" :=
  ⟨by decide, (c7_top_key_amended "/a").2 (by decide), by decide,
    (c7_top_key_amended "b/").1 (by decide)⟩

/-- C8: Unsupported backend. The registry's tags are exactly "zookeeper",
"json" and "yml"; constructing with any tag outside it fails with the
unsupported-backend error, and for every tag in it the construction does
not raise that error (it resolves the backend class path). -/
theorem c8_backend_registry (bt : String) :
    BACKENDS_TYPE.map Prod.fst = ["zookeeper", "json", "yml"] ∧
    (¬ bt ∈ BACKENDS_TYPE.map Prod.fst →
      getBackendClass bt = .error (.unsupportedBackend bt)) ∧
    (bt ∈ BACKENDS_TYPE.map Prod.fst → ∃ s, getBackendClass bt = .ok s) := by
  refine ⟨rfl, ?_, ?_⟩
  · intro h
    unfold getBackendClass
    rw [if_neg (by simpa [keysStr] using h)]
  · intro h
    unfold getBackendClass
    rw [if_pos (by simpa [keysStr] using h)]
    exact ⟨_, rfl⟩

theorem c8_backend_registry_witness :
    getBackendClass "redis" = .error (.unsupportedBackend "redis") ∧
    (∃ s, getBackendClass "zookeeper" = .ok s) :=
  ⟨(c8_backend_registry "redis").2.1 (by decide),
   (c8_backend_registry "zookeeper").2.2 (by decide)⟩

/-- C9: Single-key shape invariant of the export walk. Every present result
of the recursive export step is a map with exactly one key — the resolved
current segment of the path; merging children results therefore adds
exactly one entry per accessible child (the entries appended to the
accumulator are keyed by precisely the accessible children, in order) and
never overwrites an entry of a different sibling. -/
theorem c9_single_key_shape (st : Store) (fuel : Nat) (p : Path) :
    (∀ r, dumpChildren st fuel p = .ok (some r) → ∃ d, r = [(pathKeyP p, d)]) ∧
    (∀ (cs : List String) (acc r : List (String × DV)),
      dumpFold (fun q => dumpChildren st fuel q) p cs acc = .ok r →
      (∀ c, c ∈ cs → ¬ c = "") → cs.Nodup →
      (∀ c, c ∈ cs → c ∉ keysStr acc) →
      ∃ news, r = acc ++ news ∧
        news.map Prod.fst = cs.filter (fun c => accessibleB st fuel (p ++ [c]))) :=
  ⟨fun r h => dump_shape st fuel p r h,
   fun cs acc r h h1 h2 h3 => dumpFold_merge st fuel p cs acc r h h1 h2 h3⟩

theorem c9_single_key_shape_witness :
    (∃ d, ([("/", DV.str "")] : List (String × DV)) = [(pathKeyP [], d)]) ∧
    (∃ news, ([("a", DV.str "x")] : List (String × DV)) = [] ++ news ∧
      news.map Prod.fst = ["a"].filter (fun c =>
        accessibleB ⟨[([], ""), (["a"], "x")], [], []⟩ 1 ([] ++ [c]))) :=
  ⟨(c9_single_key_shape Store.initial 1 []).1 [("/", DV.str "")] rfl,
   (c9_single_key_shape ⟨[([], ""), (["a"], "x")], [], []⟩ 1 []).2
     ["a"] [] [("a", DV.str "x")] rfl (by decide) (by decide)
     (fun c hc => by simp [keysStr])⟩

/-- C10: Asymmetric failure absorption in export. A failed read of the
node's own value is absorbed: the walk returns `None` for that subtree.
But if the value read succeeds and the children listing raises, the error
propagates out of the walk (the whole export aborts) instead of the
subtree being omitted. -/
theorem c10_children_error (st : Store) (fuel : Nat) (p : Path) :
    (st.dumpGet p = none → dumpChildren st fuel p = .ok none) ∧
    (∀ v e, st.dumpGet p = some v → st.getChildrenE p = .error e →
      dumpChildren st (fuel + 1) p = .error e) :=
  ⟨fun hg => dump_get_failure st fuel p hg,
   fun v e hg hc => dump_children_error st fuel p v e hg hc⟩

theorem c10_children_error_witness :
    dumpChildren Store.initial 1 ["zz"] = .ok none ∧
    dumpChildren ⟨[([], ""), (["a"], "x")], [], [["a"]]⟩ 1 ["a"] =
      .error .noAuth :=
  ⟨(c10_children_error Store.initial 1 ["zz"]).1 rfl,
   (c10_children_error ⟨[([], ""), (["a"], "x")], [], [["a"]]⟩ 0 ["a"]).2
     "x" .noAuth rfl rfl⟩

end Confguru
